import Mathlib

/-! # Lazy-sequence combinators: `GroupBy`, `Count`, `Cycle`, `Repeat`

A shallow embedding of `pkg/group/groupby.go` and `pkg/sequence/*.go`.

Push iterators (`iter.Seq`) are functions that drive a callback.  A callback is
modelled by a function `C → V → C × Bool` on an explicit consumer state `C`: the
Boolean is the value the Go callback returns (`false` means the loop body broke
out).  The pull cursor obtained from `iter.Pull` over a finite input is the list
of elements not yet pulled; a released cursor holds no element.

The operator `==` of the key type `K` is a parameter `eq : K → K → Bool` of the
embedding of `GroupBy`.  It need not be reflexive: a floating-point `NaN` differs
from itself.
-/

namespace Itertools

variable {V K C : Type}

/-! ## GroupBy: data model -/

/-- Observable actions of one `GroupBy` iteration, in program order. -/
inductive Event (V K : Type) where
  /-- The call `next()` returned this result (`none` when `ok` is false). -/
  | pull (r : Option V)
  /-- The function `keyFunc` was invoked with this argument. -/
  | key (v : V)
  /-- The call `yield(targetKey, currGroup)` was made with this key. -/
  | emit (k : K)
  /-- The deferred `stop()` ran. -/
  | stop
  deriving DecidableEq, Repr

/-- The variables `currValue`, `currKey`, `exhausted` shared by the outer loop and
every `_grouper` closure, the position of the pull cursor, and the log of
observable actions. -/
structure State (V K : Type) where
  currValue : V
  currKey : K
  exhausted : Bool
  cursor : List V
  trace : List (Event V K)
  deriving DecidableEq, Repr

/-- A single-pass consumer of `GroupBy`'s output, i.e. the body of
`for key, group := range GroupBy(..) { ..; for val := range group { .. }; .. }`. -/
structure Consumer (V K C : Type) where
  /-- The part of the outer body before the inner loop; the flag tells whether the
  body ranges over the group at all. -/
  enter : C → K → C × Bool
  /-- The body of the inner loop; `false` when it breaks. -/
  inner : C → V → C × Bool
  /-- The part of the outer body after the inner loop; `false` when the outer loop
  breaks. -/
  leave : C → C × Bool

/-- The outcome of running `GroupBy` for a bounded number of passes of its outer loop. -/
structure Run (V K C : Type) where
  /-- The consumer's state. -/
  cons : C
  /-- The log of observable actions. -/
  trace : List (Event V K)
  /-- Whether `GroupBy` returned; `false` when the outer loop is still running. -/
  returned : Bool
  /-- The shared variables at that moment; `none` when the input was empty and they
  were never assigned. -/
  shared : Option (State V K)

/-- The operator `==` of a key type on which it is structural equality. -/
def same [DecidableEq K] : K → K → Bool := fun a b => decide (a = b)

/-- The keys of a floating-point type as far as `==` is concerned: numbers, and a
`nan` that differs from every key, itself included. -/
inductive Flt where
  | nan
  | num (n : Int)
  deriving DecidableEq, Repr

/-- The operator `==` on floating-point keys: `NaN == x` is false for every `x`. -/
def Flt.eq : Flt → Flt → Bool
  | Flt.num a, Flt.num b => decide (a = b)
  | _, _ => false

/-! ## GroupBy: the code -/

section Code

/-- The `for { v, ok := next(); .. }` loop of `_grouper` (groupby.go lines 50-67).
The first argument is the cursor; `eq` is the `==` of the key type. -/
def grouperLoop (eq : K → K → Bool) (keyFunc : V → K) (targetKey : K)
    (yieldInner : C → V → C × Bool) : List V → C → State V K → C × State V K
  | [], c, st =>
    (c, { st with exhausted := true, cursor := [], trace := st.trace ++ [Event.pull none] })
  | v :: rest, c, st =>
    let st1 : State V K :=
      { st with currValue := v, currKey := keyFunc v, cursor := rest,
                trace := st.trace ++ [Event.pull (some v), Event.key v] }
    if !(eq st1.currKey targetKey) then (c, st1)
    else
      let r := yieldInner c st1.currValue
      if !r.2 then (r.1, st1)
      else grouperLoop eq keyFunc targetKey yieldInner rest r.1 st1

/-- The sequence returned by `_grouper(targetKey)` (groupby.go lines 42-69), run with
the callback `yieldInner`. -/
def _grouper (eq : K → K → Bool) (keyFunc : V → K) (targetKey : K)
    (yieldInner : C → V → C × Bool) (c : C) (st : State V K) : C × State V K :=
  let r := yieldInner c st.currValue
  if !r.2 then (r.1, st)
  else grouperLoop eq keyFunc targetKey yieldInner st.cursor r.1 st

/-- The call `yield(targetKey, currGroup)` for a single-pass consumer: the outer
loop body, which may range over the group it was handed. -/
def Consumer.yield (cons : Consumer V K C) (eq : K → K → Bool) (keyFunc : V → K)
    (targetKey : K) (c : C) (st : State V K) : (C × State V K) × Bool :=
  let e := cons.enter c targetKey
  let g := if e.2 then _grouper eq keyFunc targetKey cons.inner e.1 st else (e.1, st)
  let l := cons.leave g.1
  ((l.1, g.2), l.2)

/-- The drain step `if currKey == targetKey { for range currGroup {} }`
(groupby.go lines 86-90). -/
def drain (eq : K → K → Bool) (keyFunc : V → K) (targetKey : K) (st : State V K) :
    State V K :=
  if eq st.currKey targetKey then
    (_grouper eq keyFunc targetKey (fun (u : Unit) (_ : V) => (u, true)) () st).2
  else st

/-- One pass of the body of `for !exhausted { .. }` (groupby.go lines 73-90), the call
`yield(targetKey, currGroup)` being `yield targetKey`; the flag is `false` when the body
returned from `GroupBy`.  A loop body acts on the shared state only by ranging over
group handles. -/
def outerBody (eq : K → K → Bool) (keyFunc : V → K)
    (yield : K → C → State V K → (C × State V K) × Bool) (c : C) (st : State V K) :
    (C × State V K) × Bool :=
  let targetKey := st.currKey
  let y := yield targetKey c { st with trace := st.trace ++ [Event.emit targetKey] }
  if !y.2 then (y.1, false)
  else ((y.1.1, drain eq keyFunc targetKey y.1.2), true)

/-- The outer loop `for !exhausted { .. }` (groupby.go lines 72-91), run for at most
`fuel` passes.  The flag tells whether the loop was left; it is `false` when the loop is
still running after `fuel` passes. -/
def outerLoop (eq : K → K → Bool) (keyFunc : V → K)
    (yield : K → C → State V K → (C × State V K) × Bool) :
    Nat → C → State V K → (C × State V K) × Bool
  | 0, c, st => ((c, st), false)
  | fuel + 1, c, st =>
    if st.exhausted then ((c, st), true)
    else if (outerBody eq keyFunc yield c st).2 then
      outerLoop eq keyFunc yield fuel (outerBody eq keyFunc yield c st).1.1
        (outerBody eq keyFunc yield c st).1.2
    else ((outerBody eq keyFunc yield c st).1, true)

/-- The shared variables once the first element has been pulled (groupby.go lines
32-37). -/
def seed (keyFunc : V → K) (v : V) (rest : List V) : State V K :=
  { currValue := v, currKey := keyFunc v, exhausted := false, cursor := rest,
    trace := [Event.pull (some v), Event.key v] }

/-- The deferred `stop()` (groupby.go line 29): the cursor is released, after which
`next()` returns `ok = false`. -/
def release (st : State V K) : State V K :=
  { st with cursor := [], trace := st.trace ++ [Event.stop] }

/-- The function `GroupBy(seq, keyFunc)` (groupby.go lines 16-93) run with the outer
loop body `yield` for at most `fuel` passes of the outer loop. -/
def GroupBy (eq : K → K → Bool) (seq : List V) (keyFunc : V → K)
    (yield : K → C → State V K → (C × State V K) × Bool) (fuel : Nat) (c : C) :
    Run V K C :=
  match seq with
  | [] =>
    { cons := c, trace := [Event.pull none, Event.stop], returned := true, shared := none }
  | v :: rest =>
    if (outerLoop eq keyFunc yield fuel c (seed keyFunc v rest)).2 then
      { cons := (outerLoop eq keyFunc yield fuel c (seed keyFunc v rest)).1.1,
        trace := (release (outerLoop eq keyFunc yield fuel c (seed keyFunc v rest)).1.2).trace,
        returned := true,
        shared := some (release (outerLoop eq keyFunc yield fuel c (seed keyFunc v rest)).1.2) }
    else
      { cons := (outerLoop eq keyFunc yield fuel c (seed keyFunc v rest)).1.1,
        trace := (outerLoop eq keyFunc yield fuel c (seed keyFunc v rest)).1.2.trace,
        returned := false,
        shared := some (outerLoop eq keyFunc yield fuel c (seed keyFunc v rest)).1.2 }

end Code

/-! ## GroupBy: consumers and reference definitions -/

/-- A Go loop `for val := range slice { body }` over a slice, with early exit. -/
def feed (inner : C → V → C × Bool) : C → List V → C
  | c, [] => c
  | c, v :: l => if (inner c v).2 then feed inner (inner c v).1 l else (inner c v).1

/-- The consumer's view of one `yield(targetKey, currGroup)` call. -/
def Consumer.pass (cons : Consumer V K C) (c : C) (k : K) (g : List V) : C × Bool :=
  cons.leave (if (cons.enter c k).2 then feed cons.inner (cons.enter c k).1 g
    else (cons.enter c k).1)

/-- The loop `for key, group := range pairs { .. }` of a single-pass consumer run over
already materialised groups. -/
def Consumer.onRuns (cons : Consumer V K C) : C → List (K × List V) → C
  | c, [] => c
  | c, (k, g) :: rest =>
    let e := cons.enter c k
    let l := cons.leave (if e.2 then feed cons.inner e.1 g else e.1)
    if l.2 then cons.onRuns l.1 rest else l.1

/-- The run that starts with the elements `acc` and has key `targetKey`, continued into
`l`, followed by the runs of what is left. -/
def runsFrom (eq : K → K → Bool) (keyFunc : V → K) : K → List V → List V → List (K × List V)
  | targetKey, acc, [] => [(targetKey, acc)]
  | targetKey, acc, v :: l =>
    if eq (keyFunc v) targetKey then runsFrom eq keyFunc targetKey (acc ++ [v]) l
    else (targetKey, acc) :: runsFrom eq keyFunc (keyFunc v) [v] l

/-- Reference definition following the spec's words: the partition of a sequence into
maximal runs of consecutive elements whose key equals (`==`) the key of the run's first
element, each run paired with that key. -/
def runs (eq : K → K → Bool) (keyFunc : V → K) : List V → List (K × List V)
  | [] => []
  | v :: l => runsFrom eq keyFunc (keyFunc v) [v] l

/-- Append a value to the element list of the last recorded group. -/
def pushLast (v : V) : List (K × List V) → List (K × List V)
  | [] => []
  | [(k, g)] => [(k, g ++ [v])]
  | p :: q :: r => p :: pushLast v (q :: r)

/-- Number of elements recorded for the last group. -/
def lastCount : List (K × List V) → Nat
  | [] => 0
  | [(_, g)] => g.length
  | _ :: q :: r => lastCount (q :: r)

/-- The consumer of the repository's tests, recording the pairs it receives in order:
it appends every received element to the current group's slice.  `limit i = none` means
group number `i` is ranged over to its end, `limit i = some 0` that it is not ranged
over at all, and `limit i = some (j+1)` that the inner loop breaks right after the
element number `j+1` was received.  The outer loop never breaks. -/
def collector (limit : Nat → Option Nat) : Consumer V K (List (K × List V)) where
  enter c k := (c ++ [(k, [])], limit c.length != some 0)
  inner c v :=
    (pushLast v c,
      match limit (c.length - 1) with
      | none => true
      | some j => decide (lastCount (pushLast v c) < j))
  leave c := (c, true)

/-- The policy of the tests: every group is ranged over to its end. -/
def allOf : Nat → Option Nat := fun _ => none

/-- The policy of a consumer that never ranges over a group. -/
def noneOf : Nat → Option Nat := fun _ => some 0

/-- What a consumer following `limit` keeps of group number `i` when the group holds `g`. -/
def truncated (limit : Nat → Option Nat) (i : Nat) (g : List V) : List V :=
  match limit i with
  | none => g
  | some j => g.take j

/-- The runs `rs`, numbered from `i`, each cut down to what `limit` reads of it. -/
def truncRuns (limit : Nat → Option Nat) : Nat → List (K × List V) → List (K × List V)
  | _, [] => []
  | i, (k, g) :: rest => (k, truncated limit i g) :: truncRuns limit (i + 1) rest

/-- The policy of a consumer that ranges over the first group to its end and never
ranges over a later group. -/
def firstOnly : Nat → Option Nat := fun i => if i = 0 then none else some 0

/-- A consumer like `collector limit` that leaves the outer loop at the end of the body
that handles pair number `n`. -/
def collectorUntil (limit : Nat → Option Nat) (n : Nat) : Consumer V K (List (K × List V)) :=
  { collector limit with leave := fun c => (c, decide (c.length < n)) }

/-- The consumer that ranges over each of the first `k-1` groups to its end and leaves
the outer loop on receiving pair number `k`, without ranging over its group. -/
def stopAt (k : Nat) : Consumer V K (List (K × List V)) :=
  collectorUntil (fun i => if i + 1 < k then none else some 0) k

/-- The loop body `result = append(result, val)`, which never breaks. -/
def collectAll : List V → V → List V × Bool := fun acc v => (acc ++ [v], true)

/-- An outer loop body that keeps the handle of the first group.  For the first pair it
ranges over the group and records `(key, elements)`.  For every later pair it first
ranges over the kept handle of the first group again, adding what that yields to the
second component, and only then ranges over the group it was just handed. -/
def revisitFirst (eq : K → K → Bool) (keyFunc : V → K) :
    K → List (K × List V) × List V → State V K →
      ((List (K × List V) × List V) × State V K) × Bool :=
  fun key c st =>
    match c.1 with
    | [] =>
      (((c.1 ++ [(key, (_grouper eq keyFunc key collectAll [] st).1)], c.2),
        (_grouper eq keyFunc key collectAll [] st).2), true)
    | (k0, _) :: _ =>
      (((c.1 ++ [(key, (_grouper eq keyFunc key collectAll []
            (_grouper eq keyFunc k0 collectAll [] st).2).1)],
          c.2 ++ (_grouper eq keyFunc k0 collectAll [] st).1),
        (_grouper eq keyFunc key collectAll []
          (_grouper eq keyFunc k0 collectAll [] st).2).2), true)

/-- A consumer that ranges over every group it is handed and accepts at least its first
element. -/
def Consumer.Eager (cons : Consumer V K C) : Prop :=
  ∀ c k v, (cons.enter c k).2 = true ∧ (cons.inner (cons.enter c k).1 v).2 = true

/-- The argument of a `keyFunc` invocation. -/
def Event.keyArg : Event V K → Option V
  | Event.key v => some v
  | _ => none

/-- The element obtained by a successful `next()`. -/
def Event.pulled : Event V K → Option V
  | Event.pull r => r
  | _ => none

/-- Successful pulls and key function invocations. -/
def Event.isPullKey : Event V K → Bool
  | Event.pull (some _) => true
  | Event.key _ => true
  | _ => false

/-- The deferred `stop()` calls. -/
def Event.isStop : Event V K → Bool
  | Event.stop => true
  | _ => false

/-- The calls of the outer `yield`, one per emitted pair. -/
def Event.isEmit : Event V K → Bool
  | Event.emit _ => true
  | _ => false

/-- Every successful pull is directly followed by the key function's invocation on the
pulled element, and the key function is invoked nowhere else. -/
def WellPaired : List (Event V K) → Prop
  | [] => True
  | Event.pull (some v) :: Event.key w :: rest => v = w ∧ WellPaired rest
  | Event.pull (some _) :: _ => False
  | Event.key _ :: _ => False
  | _ :: rest => WellPaired rest

/-- The log of pulling the elements of `s` one by one, each followed by its key
computation. -/
def pullKeyLog (K : Type) (s : List V) : List (Event V K) :=
  s.flatMap (fun v => [Event.pull (some v), Event.key v])

/-! ## Invariants of the shared state -/

/-- The shared state once the run of `k` at the front of the cursor `l` has been passed:
either the input ended inside the run, or the first element with another key is the
current value. -/
def Passed (eq : K → K → Bool) (keyFunc : V → K) (k : K) (l : List V) (e : Bool)
    (r : State V K) : Prop :=
  (l.dropWhile (fun v => eq (keyFunc v) k) = [] ∧ r.exhausted = true) ∨
  (r.exhausted = e ∧ r.currKey = keyFunc r.currValue ∧ eq r.currKey k = false ∧
    r.currValue :: r.cursor = l.dropWhile (fun v => eq (keyFunc v) k))

/-- The shared state inside the run of `k`: the current key equals (`==`) `k`. -/
def Inside (eq : K → K → Bool) (keyFunc : V → K) (k : K) (l : List V) (e : Bool)
    (r : State V K) : Prop :=
  r.exhausted = e ∧ eq r.currKey k = true ∧
    r.cursor.dropWhile (fun v => eq (keyFunc v) k) =
      l.dropWhile (fun v => eq (keyFunc v) k)

/-- The log is well formed, it accounts for every element no longer in the cursor, and
an exhausted cursor is empty. -/
def Sound (s : List V) (st : State V K) : Prop :=
  WellPaired st.trace ∧
    st.trace.filter Event.isPullKey ++ pullKeyLog K st.cursor = pullKeyLog K s ∧
    (st.exhausted = true → st.cursor = [])

/-! ## Count and Cycle: data model and code -/

/-- An integer type of Go: its width in bits and whether it is signed. -/
structure IntType where
  bits : Nat
  signed : Bool
  deriving DecidableEq, Repr

/-- The value of the type that represents the integer `x`: `x` modulo `2 ^ bits`, taken in
`[0, 2^bits)` for an unsigned type and in `[-2^(bits-1), 2^(bits-1))` for a signed one. -/
def IntType.wrap (T : IntType) (x : Int) : Int :=
  if T.signed then (x + 2 ^ (T.bits - 1)) % 2 ^ T.bits - 2 ^ (T.bits - 1)
  else x % 2 ^ T.bits

/-- Native addition `a + b` of the type, which wraps around on overflow. -/
def IntType.add (T : IntType) (a b : Int) : Int := T.wrap (a + b)

/-- Go's `int64` (and `int` on 64-bit platforms). -/
def int64 : IntType := { bits := 64, signed := true }

/-- Go's `uint8`. -/
def uint8 : IntType := { bits := 8, signed := false }

/-- The loop `for { if !yield(n) { return }; n += step }` of `Count` (count.go lines
29-34), run for at most `fuel` passes.  The flag tells whether the loop returned; it is
`false` when the loop is still running after `fuel` passes. -/
def Count.loop {N : Type} (add : N → N → N) (step : N) (yield : C → N → C × Bool) :
    Nat → N → C → C × Bool
  | 0, _, c => (c, false)
  | fuel + 1, n, c =>
    if !(yield c n).2 then ((yield c n).1, true)
    else Count.loop add step yield fuel (add n step) (yield c n).1

/-- The sequence `Count(start, step)` (count.go lines 26-36) run with the callback
`yield`, for a numeric type whose `+` is `add`. -/
def Count {N : Type} (add : N → N → N) (start step : N) (yield : C → N → C × Bool)
    (fuel : Nat) (c : C) : C × Bool :=
  Count.loop add step yield fuel start c

/-- The loop `for _, element := range saved { if !yield(element) { return } }`
(cycle.go lines 35-39); the flag tells whether it returned from `Cycle`. -/
def Cycle.replay (yield : C → V → C × Bool) : List V → C → C × Bool
  | [], c => (c, false)
  | element :: rest, c =>
    if !(yield c element).2 then ((yield c element).1, true)
    else Cycle.replay yield rest (yield c element).1

/-- The outcome of the first pass of `Cycle`. -/
structure Cycle.Pass (V C : Type) where
  /-- The consumer's state. -/
  cons : C
  /-- The slice `saved`. -/
  saved : List V
  /-- The number of elements the loop received from the input sequence. -/
  read : Nat
  /-- Whether the pass returned from `Cycle`. -/
  returned : Bool

/-- The first pass `for element := range seq { .. }` of `Cycle` (cycle.go lines 20-26). -/
def Cycle.firstPass (yield : C → V → C × Bool) : List V → List V → Nat → C → Cycle.Pass V C
  | [], saved, read, c => { cons := c, saved := saved, read := read, returned := false }
  | element :: rest, saved, read, c =>
    if !(yield c element).2 then
      { cons := (yield c element).1, saved := saved, read := read + 1, returned := true }
    else Cycle.firstPass yield rest (saved ++ [element]) (read + 1) (yield c element).1

/-- The loop `for { for _, element := range saved { .. } }` of `Cycle` (cycle.go lines
34-40), run for at most `fuel` passes over `saved`; the flag is `false` when the loop is
still running after that. -/
def Cycle.forever (yield : C → V → C × Bool) (saved : List V) : Nat → C → C × Bool
  | 0, c => (c, false)
  | fuel + 1, c =>
    if (Cycle.replay yield saved c).2 then Cycle.replay yield saved c
    else Cycle.forever yield saved fuel (Cycle.replay yield saved c).1

/-- The sequence `Cycle(seq)` (cycle.go lines 16-42) over a finite input, run with the
callback `yield`.  The flag tells whether the sequence returned within `fuel` passes of
its replay loop. -/
def Cycle (seq : List V) (yield : C → V → C × Bool) (fuel : Nat) (c : C) : C × Bool :=
  if (Cycle.firstPass yield seq [] 0 c).returned then
    ((Cycle.firstPass yield seq [] 0 c).cons, true)
  else if (Cycle.firstPass yield seq [] 0 c).saved.length = 0 then
    ((Cycle.firstPass yield seq [] 0 c).cons, true)
  else
    Cycle.forever yield (Cycle.firstPass yield seq [] 0 c).saved fuel
      (Cycle.firstPass yield seq [] 0 c).cons

/-- The consumer of the tests of `Count` and `Cycle`:
`if i >= k { break }; result = append(result, val); i++`. -/
def firstK {N : Type} (k : Nat) : List N × Nat → N → (List N × Nat) × Bool :=
  fun c v => if c.2 ≥ k then (c, false) else ((c.1 ++ [v], c.2 + 1), true)

/-! ## Repeat: the code -/

/-- The loop `for { if !yield(object) { return } }` of `Repeat` without a count
(repeat.go lines 31-35), run for at most `fuel` passes; the flag is `false` when the loop
is still running after that. -/
def Repeat.forever (yield : C → V → C × Bool) (object : V) : Nat → C → C × Bool
  | 0, c => (c, false)
  | fuel + 1, c =>
    if !(yield c object).2 then ((yield c object).1, true)
    else Repeat.forever yield object fuel (yield c object).1

/-- The loop `for i := 0; i < count; i++ { if !yield(object) { return } }` of `Repeat`
(repeat.go lines 39-43), from the value `i` of its counter on.  The counter stays below
`count`, so `i++` never overflows Go's `int`. -/
def Repeat.counted (yield : C → V → C × Bool) (object : V) (count : Int) (i : Int) (c : C) :
    C :=
  if i < count then
    if !(yield c object).2 then (yield c object).1
    else Repeat.counted yield object count (i + 1) (yield c object).1
  else c
termination_by (count - i).toNat
decreasing_by omega

/-- The sequence `Repeat(object, times...)` (repeat.go lines 28-47) run with the callback
`yield`.  The flag tells whether the sequence returned (within `fuel` passes when no
count is given). -/
def Repeat (object : V) (times : List Int) (yield : C → V → C × Bool) (fuel : Nat) (c : C) :
    C × Bool :=
  match times with
  | [] => Repeat.forever yield object fuel c
  | count :: _ => (Repeat.counted yield object count 0 c, true)

/-! ## Run-time check of a loop body and further consumers -/

/-- The state of the function the Go compiler passes as `yield` for a loop body: it
panics when it is called after the body returned `false`. -/
structure Checked (C : Type) where
  /-- The consumer's own state. -/
  user : C
  /-- The loop body returned `false`. -/
  done : Bool
  /-- The function was called although the body had returned `false`. -/
  panicked : Bool
  deriving DecidableEq, Repr

/-- A loop body together with the run-time check around it. -/
def checked (yield : C → V → C × Bool) : Checked C → V → Checked C × Bool :=
  fun g v =>
    if g.done then ({ g with panicked := true }, false)
    else ({ g with user := (yield g.user v).1, done := !(yield g.user v).2 },
      (yield g.user v).2)

/-- The check state before the loop starts. -/
def Checked.init (c : C) : Checked C := { user := c, done := false, panicked := false }

/-- A consumer that takes `k` elements: the loop body
`result = append(result, val); i++; if i >= k { break }`. -/
def takeK {N : Type} (k : Nat) : List N × Nat → N → (List N × Nat) × Bool :=
  fun c v => ((c.1 ++ [v], c.2 + 1), decide (c.2 + 1 < k))

/-! ## Cycle: reads of the input and calls of the callback -/

/-- What `Cycle` does with an element, in program order. -/
inductive Access (V : Type) where
  /-- The loop `for element := range seq` received `element` from the input sequence
  (cycle.go line 21). -/
  | read (element : V)
  /-- The loop `for _, element := range saved` took `element` from the slice `saved`
  (cycle.go line 35). -/
  | load (element : V)
  /-- The call `yield(element)` (cycle.go lines 22 and 36). -/
  | give (element : V)
  deriving DecidableEq, Repr

/-- The element of a read of the input sequence. -/
def Access.readArg : Access V → Option V
  | Access.read v => some v
  | _ => none

/-- The element taken from the slice `saved`. -/
def Access.loadArg : Access V → Option V
  | Access.load v => some v
  | _ => none

/-- The calls of the callback. -/
def Access.isGive : Access V → Bool
  | Access.give _ => true
  | _ => false

/-- The outcome of the first pass of `Cycle`, with the log of what it did. -/
structure Cycle.PassLog (V C : Type) where
  /-- The consumer's state. -/
  cons : C
  /-- The slice `saved`. -/
  saved : List V
  /-- The log. -/
  log : List (Access V)
  /-- Whether the pass returned from `Cycle`. -/
  returned : Bool

/-- The first pass `for element := range seq { .. }` of `Cycle` (cycle.go lines 20-26),
logging every element received from the input and every call of the callback. -/
def Cycle.firstPassLog (yield : C → V → C × Bool) :
    List V → List V → List (Access V) → C → Cycle.PassLog V C
  | [], saved, log, c => { cons := c, saved := saved, log := log, returned := false }
  | element :: rest, saved, log, c =>
    if !(yield c element).2 then
      { cons := (yield c element).1, saved := saved,
        log := log ++ [Access.read element, Access.give element], returned := true }
    else
      Cycle.firstPassLog yield rest (saved ++ [element])
        (log ++ [Access.read element, Access.give element]) (yield c element).1

/-- The loop `for _, element := range saved { if !yield(element) { return } }`
(cycle.go lines 35-39), logging every element taken from `saved` and every call of the
callback. -/
def Cycle.replayLog (yield : C → V → C × Bool) :
    List V → List (Access V) → C → (C × List (Access V)) × Bool
  | [], log, c => ((c, log), false)
  | element :: rest, log, c =>
    if !(yield c element).2 then
      (((yield c element).1, log ++ [Access.load element, Access.give element]), true)
    else
      Cycle.replayLog yield rest (log ++ [Access.load element, Access.give element])
        (yield c element).1

/-- The loop `for { for _, element := range saved { .. } }` of `Cycle` (cycle.go lines
34-40) with its log, run for at most `fuel` passes over `saved`. -/
def Cycle.foreverLog (yield : C → V → C × Bool) (saved : List V) :
    Nat → List (Access V) → C → (C × List (Access V)) × Bool
  | 0, log, c => ((c, log), false)
  | fuel + 1, log, c =>
    if (Cycle.replayLog yield saved log c).2 then Cycle.replayLog yield saved log c
    else
      Cycle.foreverLog yield saved fuel (Cycle.replayLog yield saved log c).1.2
        (Cycle.replayLog yield saved log c).1.1

/-- The sequence `Cycle(seq)` (cycle.go lines 16-42) over a finite input, run with the
callback `yield`, together with the log of its reads of the input, of its reads of
`saved` and of its calls of the callback. -/
def CycleLog (seq : List V) (yield : C → V → C × Bool) (fuel : Nat) (c : C) :
    (C × List (Access V)) × Bool :=
  if (Cycle.firstPassLog yield seq [] [] c).returned then
    (((Cycle.firstPassLog yield seq [] [] c).cons,
      (Cycle.firstPassLog yield seq [] [] c).log), true)
  else if (Cycle.firstPassLog yield seq [] [] c).saved.length = 0 then
    (((Cycle.firstPassLog yield seq [] [] c).cons,
      (Cycle.firstPassLog yield seq [] [] c).log), true)
  else
    Cycle.foreverLog yield (Cycle.firstPassLog yield seq [] [] c).saved fuel
      (Cycle.firstPassLog yield seq [] [] c).log (Cycle.firstPassLog yield seq [] [] c).cons

/-- The number of calls of the callback made by a loop over `l` that returns as soon as
the callback returns `false`. -/
def Cycle.calls (yield : C → V → C × Bool) : List V → C → Nat
  | [], _ => 0
  | element :: rest, c =>
    if !(yield c element).2 then 1 else Cycle.calls yield rest (yield c element).1 + 1

/-- A callback that returns `false` on its call number `k` and `true` on every earlier
call, whatever else it does: `user` is the effect of one call on the consumer's own
state, and the second component counts the calls. -/
def stopsAt (k : Nat) (user : C → V → C) : C × Nat → V → (C × Nat) × Bool :=
  fun c v => ((user c.1 v, c.2 + 1), decide (c.2 + 1 < k))

/-! ## GroupBy over any pull cursor, finite or not -/

/-- The variables shared by the outer loop and the `_grouper` closures when the input is
pulled from a cursor of any kind: `cursor` is the state of the cursor. -/
structure LazyState (σ V K : Type) where
  currValue : V
  currKey : K
  exhausted : Bool
  cursor : σ
  trace : List (Event V K)

section LazyCode

variable {σ : Type}

/-- The loop of `_grouper` (groupby.go lines 50-67) over a cursor whose `next()` is
`next`, run for at most `fuel` passes (`none` when the loop is still running). -/
def grouperLoopL (next : σ → Option (V × σ)) (eq : K → K → Bool) (keyFunc : V → K)
    (targetKey : K) (yieldInner : C → V → C × Bool) :
    Nat → C → LazyState σ V K → Option (C × LazyState σ V K)
  | 0, _, _ => none
  | fuel + 1, c, st =>
    match next st.cursor with
    | none =>
      some (c, { st with exhausted := true, trace := st.trace ++ [Event.pull none] })
    | some (v, cur) =>
      if !(eq (keyFunc v) targetKey) then
        some (c, { st with currValue := v, currKey := keyFunc v, cursor := cur,
                           trace := st.trace ++ [Event.pull (some v), Event.key v] })
      else if !(yieldInner c v).2 then
        some ((yieldInner c v).1,
          { st with currValue := v, currKey := keyFunc v, cursor := cur,
                    trace := st.trace ++ [Event.pull (some v), Event.key v] })
      else
        grouperLoopL next eq keyFunc targetKey yieldInner fuel (yieldInner c v).1
          { st with currValue := v, currKey := keyFunc v, cursor := cur,
                    trace := st.trace ++ [Event.pull (some v), Event.key v] }

/-- The sequence returned by `_grouper(targetKey)` (groupby.go lines 42-69) over any
cursor. -/
def _grouperL (next : σ → Option (V × σ)) (eq : K → K → Bool) (keyFunc : V → K)
    (targetKey : K) (yieldInner : C → V → C × Bool) (fuel : Nat) (c : C)
    (st : LazyState σ V K) : Option (C × LazyState σ V K) :=
  if !(yieldInner c st.currValue).2 then some ((yieldInner c st.currValue).1, st)
  else grouperLoopL next eq keyFunc targetKey yieldInner fuel (yieldInner c st.currValue).1 st

/-- The call `yield(targetKey, currGroup)` of a single-pass consumer over any cursor. -/
def Consumer.yieldL (cons : Consumer V K C) (next : σ → Option (V × σ)) (eq : K → K → Bool)
    (keyFunc : V → K) (targetKey : K) (fuel : Nat) (c : C) (st : LazyState σ V K) :
    Option ((C × LazyState σ V K) × Bool) :=
  (if (cons.enter c targetKey).2 then
      _grouperL next eq keyFunc targetKey cons.inner fuel (cons.enter c targetKey).1 st
    else some ((cons.enter c targetKey).1, st)).map
    (fun g => (((cons.leave g.1).1, g.2), (cons.leave g.1).2))

/-- The drain step (groupby.go lines 86-90) over any cursor. -/
def drainL (next : σ → Option (V × σ)) (eq : K → K → Bool) (keyFunc : V → K)
    (targetKey : K) (fuel : Nat) (st : LazyState σ V K) : Option (LazyState σ V K) :=
  if eq st.currKey targetKey then
    (_grouperL next eq keyFunc targetKey (fun (u : Unit) (_ : V) => (u, true)) fuel ()
      st).map Prod.snd
  else some st

/-- One pass of the body of the outer loop (groupby.go lines 73-90) over any cursor. -/
def outerBodyL (next : σ → Option (V × σ)) (eq : K → K → Bool) (keyFunc : V → K)
    (cons : Consumer V K C) (fuel : Nat) (c : C) (st : LazyState σ V K) :
    Option ((C × LazyState σ V K) × Bool) :=
  match cons.yieldL next eq keyFunc st.currKey fuel c
      { st with trace := st.trace ++ [Event.emit st.currKey] } with
  | none => none
  | some y =>
    if !y.2 then some (y.1, false)
    else (drainL next eq keyFunc st.currKey fuel y.1.2).map (fun d => ((y.1.1, d), true))

/-- The outer loop (groupby.go lines 72-91) over any cursor, run for at most `fuel`
passes, each inner loop for at most `inner` passes. -/
def outerLoopL (next : σ → Option (V × σ)) (eq : K → K → Bool) (keyFunc : V → K)
    (cons : Consumer V K C) (inner : Nat) :
    Nat → C → LazyState σ V K → Option (C × LazyState σ V K)
  | 0, _, _ => none
  | fuel + 1, c, st =>
    if st.exhausted then some (c, st)
    else
      match outerBodyL next eq keyFunc cons inner c st with
      | none => none
      | some r =>
        if r.2 then outerLoopL next eq keyFunc cons inner fuel r.1.1 r.1.2
        else some r.1

/-- The function `GroupBy(seq, keyFunc)` (groupby.go lines 16-93) for an input sequence
given by a pull cursor in state `cur`, finite or infinite.  It returns the consumer's
final state and the log, or `none` when some loop is still running after `fuel`
passes. -/
def GroupByL (next : σ → Option (V × σ)) (eq : K → K → Bool) (cur : σ) (keyFunc : V → K)
    (cons : Consumer V K C) (fuel : Nat) (c : C) : Option (C × List (Event V K)) :=
  match next cur with
  | none => some (c, [Event.pull none, Event.stop])
  | some (v, cur') =>
    (outerLoopL next eq keyFunc cons fuel fuel c
      { currValue := v, currKey := keyFunc v, exhausted := false, cursor := cur',
        trace := [Event.pull (some v), Event.key v] }).map
      (fun r => (r.1, r.2.trace ++ [Event.stop]))

end LazyCode

/-- The cursor of a finite list. -/
def listNext : List V → Option (V × List V)
  | [] => none
  | v :: rest => some (v, rest)

/-- The cursor in state `cur` delivers the elements of `l` first; when `exact` is set it
is exhausted right after them. -/
def Follows {σ : Type} (next : σ → Option (V × σ)) (exact : Bool) : σ → List V → Prop
  | cur, [] => exact = true → next cur = none
  | cur, v :: rest => ∃ cur', next cur = some (v, cur') ∧ Follows next exact cur' rest

/-- The shared variables over a cursor agree with those over the list `st.cursor`. -/
def Sim {σ : Type} (next : σ → Option (V × σ)) (exact : Bool) (stL : LazyState σ V K)
    (st : State V K) : Prop :=
  stL.currValue = st.currValue ∧ stL.currKey = st.currKey ∧
    stL.exhausted = st.exhausted ∧ stL.trace = st.trace ∧
    Follows next exact stL.cursor st.cursor

/-- The stream `0, 0, 1, 1, 2, 2, ..`, as a cursor on the position. -/
def pairsNext : Nat → Option (Nat × Nat) := fun n => some (n / 2, n + 1)

/-! # Theorems -/

/-! ## Consumers run over materialised runs -/

theorem onRuns_cons (cons : Consumer V K C) (c : C) (k : K) (g : List V)
    (rest : List (K × List V)) :
    cons.onRuns c ((k, g) :: rest) =
      if (cons.pass c k g).2 then cons.onRuns (cons.pass c k g).1 rest
      else (cons.pass c k g).1 := by
  simp [Consumer.onRuns, Consumer.pass]

theorem pushLast_append (v : V) (c : List (K × List V)) (k : K) (g : List V) :
    pushLast v (c ++ [(k, g)]) = c ++ [(k, g ++ [v])] := by
  induction c with
  | nil => simp [pushLast]
  | cons p c ih =>
    cases c with
    | nil => simp [pushLast]
    | cons q r =>
      simp only [List.cons_append] at ih ⊢
      rw [pushLast, ih]

theorem lastCount_append (c : List (K × List V)) (k : K) (g : List V) :
    lastCount (c ++ [(k, g)]) = g.length := by
  induction c with
  | nil => simp [lastCount]
  | cons p c ih =>
    cases c with
    | nil => simp [lastCount]
    | cons q r =>
      simp only [List.cons_append] at ih ⊢
      rw [lastCount, ih]

theorem feed_collector_none (limit : Nat → Option Nat) (c : List (K × List V)) (k : K)
    (acc g : List V) (h : limit c.length = none) :
    feed (collector limit).inner (c ++ [(k, acc)]) g = c ++ [(k, acc ++ g)] := by
  induction g generalizing acc with
  | nil => simp [feed]
  | cons v g ih =>
    have := ih (acc ++ [v])
    simp [feed, collector, h, pushLast_append] at this ⊢
    exact this

theorem feed_collector_some (limit : Nat → Option Nat) (c : List (K × List V)) (k : K)
    (j : Nat) (acc g : List V) (h : limit c.length = some j) (hj : acc.length < j) :
    feed (collector limit).inner (c ++ [(k, acc)]) g =
      c ++ [(k, acc ++ g.take (j - acc.length))] := by
  induction g generalizing acc with
  | nil => simp [feed]
  | cons v g ih =>
    obtain ⟨m, hm⟩ : ∃ m, j - acc.length = m + 1 := ⟨j - acc.length - 1, by omega⟩
    by_cases hlt : acc.length + 1 < j
    · have := ih (acc ++ [v]) (by simpa using hlt)
      have hm' : j - (acc.length + 1) = m := by omega
      simp [feed, collector, h, pushLast_append, lastCount_append, hlt, hm, hm'] at this ⊢
      exact this
    · have hm' : m = 0 := by omega
      simp [feed, collector, h, pushLast_append, lastCount_append, hlt, hm, hm']

theorem pass_collector (limit : Nat → Option Nat) (c : List (K × List V)) (k : K)
    (g : List V) :
    (collector limit).pass c k g = (c ++ [(k, truncated limit c.length g)], true) := by
  cases h : limit c.length with
  | none =>
    have := feed_collector_none limit c k [] g h
    simp [Consumer.pass, truncated, h] at this ⊢
    simpa [collector, h] using this
  | some j =>
    cases j with
    | zero => simp [Consumer.pass, collector, truncated, h]
    | succ j =>
      have := feed_collector_some limit c k (j + 1) [] g h (by simp)
      simp [Consumer.pass, truncated, h] at this ⊢
      simpa [collector, h] using this

theorem pass_collectorUntil (limit : Nat → Option Nat) (n : Nat) (c : List (K × List V))
    (k : K) (g : List V) :
    (collectorUntil limit n).pass c k g =
      (c ++ [(k, truncated limit c.length g)], decide (c.length + 1 < n)) := by
  have h := congrArg Prod.fst (pass_collector limit c k g)
  have e : (collectorUntil limit n).pass c k g =
      (((collector limit).pass c k g).1,
        decide (((collector limit).pass c k g).1.length < n)) := rfl
  rw [e, h]
  simp

theorem onRuns_collector (limit : Nat → Option Nat) (rs c : List (K × List V)) :
    (collector limit).onRuns c rs = c ++ truncRuns limit c.length rs := by
  induction rs generalizing c with
  | nil => simp [Consumer.onRuns, truncRuns]
  | cons p rs ih =>
    obtain ⟨k, g⟩ := p
    rw [onRuns_cons, pass_collector]
    simp [ih, truncRuns]

theorem truncRuns_allOf (i : Nat) (rs : List (K × List V)) :
    truncRuns allOf i rs = rs := by
  induction rs generalizing i with
  | nil => rfl
  | cons p rs ih =>
    obtain ⟨k, g⟩ := p
    simp [truncRuns, truncated, allOf, ih]

theorem truncRuns_getElem? (limit : Nat → Option Nat) (n i : Nat) (rs : List (K × List V)) :
    (truncRuns limit n rs)[i]? = rs[i]?.map (fun p => (p.1, truncated limit (n + i) p.2)) := by
  induction rs generalizing n i with
  | nil => simp [truncRuns]
  | cons p rs ih =>
    obtain ⟨k, g⟩ := p
    cases i with
    | zero => simp [truncRuns]
    | succ i =>
      simp only [truncRuns, List.getElem?_cons_succ, ih]
      congr 2
      funext p
      congr 2
      omega

theorem truncRuns_keys (limit : Nat → Option Nat) (i : Nat) (rs : List (K × List V)) :
    (truncRuns limit i rs).map Prod.fst = rs.map Prod.fst := by
  induction rs generalizing i with
  | nil => rfl
  | cons p rs ih =>
    obtain ⟨k, g⟩ := p
    simp [truncRuns, ih]

/-! ## GroupBy: one group at a time -/

section Groups

theorem grouperLoop_progress (eq : K → K → Bool) (keyFunc : V → K) (targetKey : K)
    (yieldInner : C → V → C × Bool) (l : List V) (c : C) (st : State V K) :
    (grouperLoop eq keyFunc targetKey yieldInner l c st).2.cursor.length ≤ l.length := by
  induction l generalizing c st with
  | nil => simp [grouperLoop]
  | cons v rest ih =>
    simp only [grouperLoop]
    split
    · simp
    · split
      · simp
      · have h := ih (yieldInner c v).1
          { st with currValue := v, currKey := keyFunc v, cursor := rest,
                    trace := st.trace ++ [Event.pull (some v), Event.key v] }
        simp only [List.length_cons]
        omega

theorem _grouper_progress (eq : K → K → Bool) (keyFunc : V → K) (targetKey : K)
    (yieldInner : C → V → C × Bool) (c : C) (st : State V K) :
    (_grouper eq keyFunc targetKey yieldInner c st).2.cursor.length ≤ st.cursor.length := by
  by_cases h : (yieldInner c st.currValue).2
  · simp only [_grouper, h, Bool.not_true, Bool.false_eq_true, if_false]
    exact grouperLoop_progress eq keyFunc targetKey yieldInner st.cursor _ st
  · simp [_grouper, h]

theorem drain_progress (eq : K → K → Bool) (keyFunc : V → K) (targetKey : K)
    (st : State V K) :
    (drain eq keyFunc targetKey st).cursor.length ≤ st.cursor.length := by
  by_cases h : eq st.currKey targetKey = true
  · simp only [drain, h, if_true]
    exact _grouper_progress eq keyFunc targetKey _ () st
  · simp [drain, h]

theorem yield_cursor_le (eq : K → K → Bool) (keyFunc : V → K) (cons : Consumer V K C)
    (k : K) (c : C) (st : State V K) :
    (cons.yield eq keyFunc k c st).1.2.cursor.length ≤ st.cursor.length := by
  by_cases he : (cons.enter c k).2
  · simp only [Consumer.yield, he, if_true]
    exact _grouper_progress eq keyFunc k cons.inner (cons.enter c k).1 st
  · simp [Consumer.yield, he]

theorem outerBody_cursor_le (eq : K → K → Bool) (keyFunc : V → K) (cons : Consumer V K C)
    (c : C) (st : State V K) :
    (outerBody eq keyFunc (cons.yield eq keyFunc) c st).1.2.cursor.length
      ≤ st.cursor.length := by
  have hy := yield_cursor_le eq keyFunc cons st.currKey c
    { st with trace := st.trace ++ [Event.emit st.currKey] }
  by_cases hc : (cons.yield eq keyFunc st.currKey c
      { st with trace := st.trace ++ [Event.emit st.currKey] }).2
  · simp only [outerBody, hc, Bool.not_true, Bool.false_eq_true, if_false]
    exact le_trans (drain_progress eq keyFunc st.currKey _) hy
  · simp only [outerBody, hc, Bool.not_false, if_true]
    exact hy

theorem grouperLoop_exhausted_mono (eq : K → K → Bool) (keyFunc : V → K) (k : K)
    (yieldInner : C → V → C × Bool) (l : List V) (c : C) (st : State V K)
    (h : st.exhausted = true) :
    (grouperLoop eq keyFunc k yieldInner l c st).2.exhausted = true := by
  induction l generalizing c st with
  | nil => simp [grouperLoop]
  | cons v rest ih =>
    by_cases hk : eq (keyFunc v) k = true
    · by_cases hy : (yieldInner c v).2
      · simp only [grouperLoop, hk, hy, Bool.not_true, Bool.false_eq_true, if_false]
        exact ih _ _ h
      · simp [grouperLoop, hk, hy, h]
    · simp [grouperLoop, hk, h]

theorem _grouper_exhausted_mono (eq : K → K → Bool) (keyFunc : V → K) (k : K)
    (yieldInner : C → V → C × Bool) (c : C) (st : State V K) (h : st.exhausted = true) :
    (_grouper eq keyFunc k yieldInner c st).2.exhausted = true := by
  by_cases hy : (yieldInner c st.currValue).2
  · simp only [_grouper, hy, Bool.not_true, Bool.false_eq_true, if_false]
    exact grouperLoop_exhausted_mono eq keyFunc k yieldInner _ _ st h
  · simp [_grouper, hy, h]

theorem drain_exhausted_mono (eq : K → K → Bool) (keyFunc : V → K) (k : K)
    (st : State V K) (h : st.exhausted = true) :
    (drain eq keyFunc k st).exhausted = true := by
  by_cases hk : eq st.currKey k = true
  · simp only [drain, hk, if_true]
    exact _grouper_exhausted_mono eq keyFunc k _ () st h
  · simp [drain, hk, h]

/-- What the callback of a group receives: the elements of the cursor up to the first
one with another key, or up to the element at which the callback returns `false`. -/
theorem grouperLoop_fst (eq : K → K → Bool) (keyFunc : V → K) (k : K)
    (yieldInner : C → V → C × Bool) (l : List V) (c : C) (st : State V K) :
    (grouperLoop eq keyFunc k yieldInner l c st).1 =
      feed yieldInner c (l.takeWhile (fun v => eq (keyFunc v) k)) := by
  induction l generalizing c st with
  | nil => simp [grouperLoop, feed]
  | cons v rest ih =>
    by_cases hk : eq (keyFunc v) k = true
    · by_cases hy : (yieldInner c v).2
      · simp [grouperLoop, feed, hk, hy, ih]
      · simp [grouperLoop, feed, hk, hy]
    · simp [grouperLoop, feed, hk]

theorem grouperLoop_snd (eq : K → K → Bool) (keyFunc : V → K) (k : K)
    (yieldInner : C → V → C × Bool) (l : List V) (c : C) (st : State V K) :
    Passed eq keyFunc k l st.exhausted (grouperLoop eq keyFunc k yieldInner l c st).2 ∨
    Inside eq keyFunc k l st.exhausted (grouperLoop eq keyFunc k yieldInner l c st).2 := by
  induction l generalizing c st with
  | nil => left; left; simp [grouperLoop]
  | cons v rest ih =>
    by_cases hk : eq (keyFunc v) k = true
    · by_cases hy : (yieldInner c v).2
      · have h := ih (yieldInner c v).1
          { st with currValue := v, currKey := keyFunc v, cursor := rest,
                    trace := st.trace ++ [Event.pull (some v), Event.key v] }
        simpa [grouperLoop, hk, hy, Passed, Inside] using h
      · right
        simp [grouperLoop, hk, hy, Inside]
    · left; right
      simp [grouperLoop, hk, Passed]

/-- A group ranged over by a loop body that never breaks is passed. -/
theorem grouperLoop_passed (eq : K → K → Bool) (keyFunc : V → K) (k : K)
    (yieldInner : C → V → C × Bool) (hy : ∀ c v, (yieldInner c v).2 = true)
    (l : List V) (c : C) (st : State V K) :
    Passed eq keyFunc k l st.exhausted (grouperLoop eq keyFunc k yieldInner l c st).2 := by
  induction l generalizing c st with
  | nil => left; simp [grouperLoop]
  | cons v rest ih =>
    by_cases hk : eq (keyFunc v) k = true
    · have h := ih (yieldInner c v).1
        { st with currValue := v, currKey := keyFunc v, cursor := rest,
                  trace := st.trace ++ [Event.pull (some v), Event.key v] }
      simpa [grouperLoop, hk, hy, Passed] using h
    · right
      simp [grouperLoop, hk]

theorem Passed.exhausted_of_true {eq : K → K → Bool} {keyFunc : V → K} {k : K}
    {l : List V} {r : State V K} (h : Passed eq keyFunc k l true r) :
    r.exhausted = true := by
  rcases h with h | h
  · exact h.2
  · exact h.1

theorem drain_of_inside (eq : K → K → Bool) (keyFunc : V → K) (k : K) (l : List V)
    (e : Bool) (r : State V K) (h : Inside eq keyFunc k l e r) :
    Passed eq keyFunc k l e (drain eq keyFunc k r) := by
  obtain ⟨he, hk, hd⟩ := h
  have hp := grouperLoop_passed eq keyFunc k (fun (u : Unit) (_ : V) => (u, true))
    (fun _ _ => rfl) r.cursor () r
  simp only [drain, _grouper, hk, if_true, Bool.not_true, Bool.false_eq_true, if_false]
  simpa [Passed, hd, he] using hp

theorem drain_of_passed (eq : K → K → Bool) (keyFunc : V → K) (k : K) (l : List V)
    (e : Bool) (r : State V K) (h : Passed eq keyFunc k l e r) :
    Passed eq keyFunc k l e (drain eq keyFunc k r) := by
  rcases h with h | h
  · left
    exact ⟨h.1, drain_exhausted_mono eq keyFunc k r h.2⟩
  · have hk : eq r.currKey k = false := h.2.2.1
    simp only [drain, hk, Bool.false_eq_true, if_false]
    exact Or.inr h

/-- The shared state after the call `yield(targetKey, currGroup)`: the run is passed, or
the state is inside it.  The key of the run must equal itself (`==`), unless the
consumer ranges over the group and accepts its first element. -/
theorem yield_snd (eq : K → K → Bool) (keyFunc : V → K) (cons : Consumer V K C) (c : C)
    (st : State V K)
    (hsafe : eq st.currKey st.currKey = true ∨
      ((cons.enter c st.currKey).2 = true ∧
        (cons.inner (cons.enter c st.currKey).1 st.currValue).2 = true)) :
    Passed eq keyFunc st.currKey st.cursor st.exhausted
        (cons.yield eq keyFunc st.currKey c st).1.2 ∨
      Inside eq keyFunc st.currKey st.cursor st.exhausted
        (cons.yield eq keyFunc st.currKey c st).1.2 := by
  by_cases he : (cons.enter c st.currKey).2
  · by_cases hy : (cons.inner (cons.enter c st.currKey).1 st.currValue).2
    · simpa [Consumer.yield, _grouper, he, hy] using
        grouperLoop_snd eq keyFunc st.currKey cons.inner st.cursor _ st
    · right
      rcases hsafe with h | h
      · simp [Consumer.yield, _grouper, he, hy, Inside, h]
      · exact absurd h.2 hy
  · right
    rcases hsafe with h | h
    · simp [Consumer.yield, he, Inside, h]
    · exact absurd h.1 he

theorem yield_fst (eq : K → K → Bool) (keyFunc : V → K) (cons : Consumer V K C) (c : C)
    (st : State V K) :
    ((cons.yield eq keyFunc st.currKey c st).1.1, (cons.yield eq keyFunc st.currKey c st).2) =
      cons.pass c st.currKey
        (st.currValue :: st.cursor.takeWhile (fun v => eq (keyFunc v) st.currKey)) := by
  by_cases he : (cons.enter c st.currKey).2
  · by_cases hy : (cons.inner (cons.enter c st.currKey).1 st.currValue).2
    · simp [Consumer.yield, Consumer.pass, _grouper, he, hy, feed, grouperLoop_fst]
    · simp [Consumer.yield, Consumer.pass, _grouper, he, hy, feed]
  · simp [Consumer.yield, Consumer.pass, he]

theorem outerBody_fst (eq : K → K → Bool) (keyFunc : V → K) (cons : Consumer V K C)
    (c : C) (st : State V K) :
    ((outerBody eq keyFunc (cons.yield eq keyFunc) c st).1.1,
        (outerBody eq keyFunc (cons.yield eq keyFunc) c st).2) =
      cons.pass c st.currKey
        (st.currValue :: st.cursor.takeWhile (fun v => eq (keyFunc v) st.currKey)) := by
  have h := yield_fst eq keyFunc cons c
    { st with trace := st.trace ++ [Event.emit st.currKey] }
  simp only at h
  rw [← h]
  by_cases hy : (cons.yield eq keyFunc st.currKey c
      { st with trace := st.trace ++ [Event.emit st.currKey] }).2
  · simp [outerBody, hy]
  · simp [outerBody, hy]

theorem outerBody_snd (eq : K → K → Bool) (keyFunc : V → K) (cons : Consumer V K C)
    (c : C) (st : State V K)
    (hsafe : eq st.currKey st.currKey = true ∨
      ((cons.enter c st.currKey).2 = true ∧
        (cons.inner (cons.enter c st.currKey).1 st.currValue).2 = true))
    (hcont : (outerBody eq keyFunc (cons.yield eq keyFunc) c st).2 = true) :
    Passed eq keyFunc st.currKey st.cursor st.exhausted
      (outerBody eq keyFunc (cons.yield eq keyFunc) c st).1.2 := by
  have hy : (cons.yield eq keyFunc st.currKey c
      { st with trace := st.trace ++ [Event.emit st.currKey] }).2 = true := by
    by_contra hn
    simp [outerBody, hn] at hcont
  have h := yield_snd eq keyFunc cons c
    { st with trace := st.trace ++ [Event.emit st.currKey] } hsafe
  simp only [outerBody, hy, Bool.not_true, Bool.false_eq_true, if_false]
  rcases h with h | h
  · exact drain_of_passed eq keyFunc _ _ _ _ h
  · exact drain_of_inside eq keyFunc _ _ _ _ h

theorem runsFrom_eq (eq : K → K → Bool) (keyFunc : V → K) (t : K) (acc l : List V) :
    runsFrom eq keyFunc t acc l =
      (t, acc ++ l.takeWhile (fun v => eq (keyFunc v) t)) ::
        runs eq keyFunc (l.dropWhile (fun v => eq (keyFunc v) t)) := by
  induction l generalizing acc with
  | nil => simp [runsFrom, runs]
  | cons v l ih =>
    by_cases h : eq (keyFunc v) t = true
    · simp [runsFrom, h, ih]
    · simp [runsFrom, h, runs]

theorem runs_cons (eq : K → K → Bool) (keyFunc : V → K) (x : V) (xs : List V) :
    runs eq keyFunc (x :: xs) =
      (keyFunc x, x :: xs.takeWhile (fun v => eq (keyFunc v) (keyFunc x))) ::
        runs eq keyFunc (xs.dropWhile (fun v => eq (keyFunc v) (keyFunc x))) := by
  rw [runs, runsFrom_eq]
  simp

/-- The outer loop hands the consumer exactly the maximal runs of what is left of the
input, and is left within `fuel` passes: no consumer can tell it from a loop over the
materialised runs.  Either every key of the input equals itself (`==`), or the consumer
ranges over every group and accepts its first element. -/
theorem outerLoop_fst (eq : K → K → Bool) (keyFunc : V → K) (cons : Consumer V K C)
    (fuel : Nat) :
    ∀ (c : C) (st : State V K), st.cursor.length + 1 < fuel → st.exhausted = false →
      st.currKey = keyFunc st.currValue →
      (cons.Eager ∨ ∀ v ∈ st.currValue :: st.cursor, eq (keyFunc v) (keyFunc v) = true) →
      (outerLoop eq keyFunc (cons.yield eq keyFunc) fuel c st).2 = true ∧
        (outerLoop eq keyFunc (cons.yield eq keyFunc) fuel c st).1.1 =
          cons.onRuns c (runs eq keyFunc (st.currValue :: st.cursor)) := by
  induction fuel with
  | zero => intro c st h; omega
  | succ n ih =>
    intro c st hlen hex hkey hok
    have hsafe : eq st.currKey st.currKey = true ∨
        ((cons.enter c st.currKey).2 = true ∧
          (cons.inner (cons.enter c st.currKey).1 st.currValue).2 = true) := by
      rcases hok with h | h
      · exact Or.inr (h c st.currKey st.currValue)
      · left
        rw [hkey]
        exact h st.currValue (by simp)
    have hf := outerBody_fst eq keyFunc cons c st
    rw [runs_cons, onRuns_cons, ← hkey, ← hf]
    by_cases hb : (outerBody eq keyFunc (cons.yield eq keyFunc) c st).2 = true
    · simp only [outerLoop, hex, hb, Bool.false_eq_true, if_false, if_true]
      rcases outerBody_snd eq keyFunc cons c st hsafe hb with h | h
      · obtain ⟨m, rfl⟩ : ∃ m, n = m + 1 := ⟨n - 1, by omega⟩
        rw [h.1]
        simp [outerLoop, h.2, runs, Consumer.onRuns]
      · obtain ⟨he, hk, _, hd⟩ := h
        rw [← hd]
        have hl : (st.cursor.dropWhile (fun v => eq (keyFunc v) st.currKey)).length
            ≤ st.cursor.length := (List.dropWhile_sublist _).length_le
        rw [← hd] at hl
        simp only [List.length_cons] at hl
        apply ih
        · omega
        · rw [he, hex]
        · exact hk
        · rcases hok with h | h
          · exact Or.inl h
          · right
            intro v hv
            rw [hd] at hv
            exact h v (List.mem_cons_of_mem _ ((List.dropWhile_sublist _).subset hv))
    · have hb' : (outerBody eq keyFunc (cons.yield eq keyFunc) c st).2 = false := by
        simpa using hb
      simp [outerLoop, hex, hb']

/-- For every single-pass consumer, `GroupBy` returns and is indistinguishable from a
loop over the maximal runs of the input. -/
theorem GroupBy_fst (eq : K → K → Bool) (seq : List V) (keyFunc : V → K)
    (cons : Consumer V K C) (fuel : Nat) (c : C) (hfuel : seq.length + 1 < fuel)
    (hok : cons.Eager ∨ ∀ v ∈ seq, eq (keyFunc v) (keyFunc v) = true) :
    (GroupBy eq seq keyFunc (cons.yield eq keyFunc) fuel c).returned = true ∧
      (GroupBy eq seq keyFunc (cons.yield eq keyFunc) fuel c).cons =
        cons.onRuns c (runs eq keyFunc seq) := by
  cases seq with
  | nil => simp [GroupBy, runs, Consumer.onRuns]
  | cons v rest =>
    obtain ⟨h1, h2⟩ := outerLoop_fst eq keyFunc cons fuel c (seed keyFunc v rest)
      (by simp [seed] at hfuel ⊢; omega) rfl rfl hok
    simp only [GroupBy, h1, if_true]
    exact ⟨trivial, h2⟩

end Groups

/-! ## The log of pulls and key computations -/

section Trace

theorem WellPaired.append {a b : List (Event V K)} (ha : WellPaired a) (hb : WellPaired b) :
    WellPaired (a ++ b) := by
  induction a using WellPaired.induct with
  | case1 => simpa using hb
  | case2 v w rest ih =>
    simp only [WellPaired, List.cons_append] at ha ⊢
    exact ⟨ha.1, ih ha.2⟩
  | case3 v l hl =>
    cases l with
    | nil => simp [WellPaired] at ha
    | cons e l =>
      cases e <;> simp [WellPaired] at ha hl
  | case4 v l => simp [WellPaired] at ha
  | case5 e rest _ h1 h2 ih =>
    cases e with
    | pull r =>
      cases r with
      | none => simpa [WellPaired] using ih (by simpa [WellPaired] using ha)
      | some v => exact (h1 v rfl).elim
    | key v => exact (h2 v rfl).elim
    | emit k => simpa [WellPaired] using ih (by simpa [WellPaired] using ha)
    | stop => simpa [WellPaired] using ih (by simpa [WellPaired] using ha)

theorem filterMap_keyArg_filter (tr : List (Event V K)) :
    (tr.filter Event.isPullKey).filterMap Event.keyArg = tr.filterMap Event.keyArg := by
  induction tr with
  | nil => rfl
  | cons e tr ih =>
    cases e with
    | pull r => cases r <;> simp [List.filter, Event.isPullKey, Event.keyArg, ih]
    | key v => simp [List.filter, Event.isPullKey, Event.keyArg, ih]
    | emit k => simp [List.filter, Event.isPullKey, Event.keyArg, ih]
    | stop => simp [List.filter, Event.isPullKey, Event.keyArg, ih]

theorem filterMap_pulled_filter (tr : List (Event V K)) :
    (tr.filter Event.isPullKey).filterMap Event.pulled = tr.filterMap Event.pulled := by
  induction tr with
  | nil => rfl
  | cons e tr ih =>
    cases e with
    | pull r => cases r <;> simp [List.filter, Event.isPullKey, Event.pulled, ih]
    | key v => simp [List.filter, Event.isPullKey, Event.pulled, ih]
    | emit k => simp [List.filter, Event.isPullKey, Event.pulled, ih]
    | stop => simp [List.filter, Event.isPullKey, Event.pulled, ih]

theorem pullKeyLog_keyArg (s : List V) :
    (pullKeyLog K s).filterMap Event.keyArg = s := by
  induction s with
  | nil => rfl
  | cons v s ih =>
    simp only [pullKeyLog, List.flatMap_cons] at ih ⊢
    simp [Event.keyArg, ih]

theorem pullKeyLog_pulled (s : List V) :
    (pullKeyLog K s).filterMap Event.pulled = s := by
  induction s with
  | nil => rfl
  | cons v s ih =>
    simp only [pullKeyLog, List.flatMap_cons] at ih ⊢
    simp [Event.pulled, ih]

theorem grouperLoop_sound (s : List V) (eq : K → K → Bool) (keyFunc : V → K) (k : K)
    (yieldInner : C → V → C × Bool) (l : List V) (c : C) (st : State V K)
    (hw : WellPaired st.trace)
    (hl : st.trace.filter Event.isPullKey ++ pullKeyLog K l = pullKeyLog K s)
    (he : st.exhausted = true → l = []) :
    Sound s (grouperLoop eq keyFunc k yieldInner l c st).2 := by
  induction l generalizing c st with
  | nil =>
    refine ⟨?_, ?_, ?_⟩
    · exact WellPaired.append hw (by simp [WellPaired])
    · simpa [grouperLoop, Event.isPullKey] using hl
    · simp [grouperLoop]
  | cons v rest ih =>
    have hex : st.exhausted = false := by
      cases h : st.exhausted with
      | false => rfl
      | true => exact absurd (he h) (by simp)
    have hw1 : WellPaired (st.trace ++ [Event.pull (some v), Event.key v]) :=
      WellPaired.append hw (by simp [WellPaired])
    have hl1 : (st.trace ++ [Event.pull (some v), Event.key v]).filter Event.isPullKey ++
        pullKeyLog K rest = pullKeyLog K s := by
      rw [← hl]
      simp [pullKeyLog, Event.isPullKey]
    have hs1 : Sound s
        { st with currValue := v, currKey := keyFunc v, cursor := rest,
                  trace := st.trace ++ [Event.pull (some v), Event.key v] } :=
      ⟨hw1, hl1, by simp [hex]⟩
    by_cases hk : eq (keyFunc v) k = true
    · by_cases hy : (yieldInner c v).2
      · have := ih (yieldInner c v).1
          { st with currValue := v, currKey := keyFunc v, cursor := rest,
                    trace := st.trace ++ [Event.pull (some v), Event.key v] }
          hw1 hl1 (by simp [hex])
        simpa [grouperLoop, hk, hy] using this
      · simpa [grouperLoop, hk, hy] using hs1
    · simpa [grouperLoop, hk] using hs1

theorem _grouper_sound (s : List V) (eq : K → K → Bool) (keyFunc : V → K) (k : K)
    (yieldInner : C → V → C × Bool) (c : C) (st : State V K) (h : Sound s st) :
    Sound s (_grouper eq keyFunc k yieldInner c st).2 := by
  by_cases hy : (yieldInner c st.currValue).2
  · simpa [_grouper, hy] using
      grouperLoop_sound s eq keyFunc k yieldInner st.cursor _ st h.1 h.2.1 h.2.2
  · simpa [_grouper, hy] using h

theorem drain_sound (s : List V) (eq : K → K → Bool) (keyFunc : V → K) (k : K)
    (st : State V K) (h : Sound s st) : Sound s (drain eq keyFunc k st) := by
  by_cases hk : eq st.currKey k = true
  · simpa [drain, hk] using _grouper_sound s eq keyFunc k _ () st h
  · simpa [drain, hk] using h

theorem outerBody_sound (s : List V) (eq : K → K → Bool) (keyFunc : V → K)
    (cons : Consumer V K C) (c : C) (st : State V K) (h : Sound s st) :
    Sound s (outerBody eq keyFunc (cons.yield eq keyFunc) c st).1.2 := by
  have h0 : Sound s { st with trace := st.trace ++ [Event.emit st.currKey] } :=
    ⟨WellPaired.append h.1 (by simp [WellPaired]), by simpa [Event.isPullKey] using h.2.1,
      h.2.2⟩
  have hy : Sound s (cons.yield eq keyFunc st.currKey c
      { st with trace := st.trace ++ [Event.emit st.currKey] }).1.2 := by
    by_cases he : (cons.enter c st.currKey).2
    · simpa [Consumer.yield, he] using
        _grouper_sound s eq keyFunc st.currKey cons.inner _ _ h0
    · simpa [Consumer.yield, he] using h0
  by_cases hc : (cons.yield eq keyFunc st.currKey c
      { st with trace := st.trace ++ [Event.emit st.currKey] }).2
  · simpa [outerBody, hc] using drain_sound s eq keyFunc st.currKey _ hy
  · simpa [outerBody, hc] using hy

theorem outerLoop_sound (s : List V) (eq : K → K → Bool) (keyFunc : V → K)
    (cons : Consumer V K C) (fuel : Nat) :
    ∀ (c : C) (st : State V K), Sound s st →
      Sound s (outerLoop eq keyFunc (cons.yield eq keyFunc) fuel c st).1.2 := by
  induction fuel with
  | zero => intro c st hs; simpa [outerLoop] using hs
  | succ n ih =>
    intro c st hs
    cases hex : st.exhausted with
    | true => simpa [outerLoop, hex] using hs
    | false =>
      cases hb : (outerBody eq keyFunc (cons.yield eq keyFunc) c st).2 with
      | false =>
        simpa [outerLoop, hex, hb] using outerBody_sound s eq keyFunc cons c st hs
      | true =>
        simpa [outerLoop, hex, hb] using
          ih _ _ (outerBody_sound s eq keyFunc cons c st hs)

/-- A consumer that never leaves the outer loop lets it end only on an exhausted
cursor. -/
theorem outerLoop_exhausted (eq : K → K → Bool) (keyFunc : V → K) (cons : Consumer V K C)
    (hcont : ∀ c, (cons.leave c).2 = true) (fuel : Nat) :
    ∀ (c : C) (st : State V K),
      (outerLoop eq keyFunc (cons.yield eq keyFunc) fuel c st).2 = true →
      (outerLoop eq keyFunc (cons.yield eq keyFunc) fuel c st).1.2.exhausted = true := by
  induction fuel with
  | zero => intro c st h; simp [outerLoop] at h
  | succ n ih =>
    intro c st h
    cases hex : st.exhausted with
    | true => simp [outerLoop, hex]
    | false =>
      have hb : (outerBody eq keyFunc (cons.yield eq keyFunc) c st).2 = true := by
        have := congrArg Prod.snd (outerBody_fst eq keyFunc cons c st)
        simp only [Consumer.pass] at this
        rw [this]
        exact hcont _
      simp only [outerLoop, hex, hb, Bool.false_eq_true, if_false, if_true] at h ⊢
      exact ih _ _ h

/-- The log of a `GroupBy` iteration that returned and whose consumer never leaves the
outer loop. -/
theorem GroupBy_log (eq : K → K → Bool) (s : List V) (keyFunc : V → K)
    (cons : Consumer V K C) (fuel : Nat) (c : C) (hcont : ∀ c, (cons.leave c).2 = true)
    (hret : (GroupBy eq s keyFunc (cons.yield eq keyFunc) fuel c).returned = true) :
    WellPaired (GroupBy eq s keyFunc (cons.yield eq keyFunc) fuel c).trace ∧
      (GroupBy eq s keyFunc (cons.yield eq keyFunc) fuel c).trace.filter Event.isPullKey
        = pullKeyLog K s := by
  cases s with
  | nil => simp [GroupBy, WellPaired, pullKeyLog, Event.isPullKey]
  | cons v rest =>
    have hflag : (outerLoop eq keyFunc (cons.yield eq keyFunc) fuel c
        (seed keyFunc v rest)).2 = true := by
      by_contra hn
      simp [GroupBy, hn] at hret
    have h0 : Sound (v :: rest) (seed keyFunc v rest) := by
      refine ⟨by simp [seed, WellPaired], ?_, by simp [seed]⟩
      simp [seed, pullKeyLog, Event.isPullKey]
    have hs := outerLoop_sound (v :: rest) eq keyFunc cons fuel c (seed keyFunc v rest) h0
    have he := outerLoop_exhausted eq keyFunc cons hcont fuel c (seed keyFunc v rest) hflag
    have hc := hs.2.2 he
    have hl := hs.2.1
    rw [hc] at hl
    simp only [GroupBy, hflag, if_true, release]
    refine ⟨WellPaired.append hs.1 (by simp [WellPaired]), ?_⟩
    simp only [List.filter_append]
    simpa [pullKeyLog, Event.isPullKey] using hl

theorem grouperLoop_filter (p : Event V K → Bool) (hp : ∀ r, p (Event.pull r) = false)
    (hk : ∀ v, p (Event.key v) = false) (eq : K → K → Bool) (keyFunc : V → K) (k : K)
    (yieldInner : C → V → C × Bool) (l : List V) (c : C) (st : State V K) :
    (grouperLoop eq keyFunc k yieldInner l c st).2.trace.filter p = st.trace.filter p := by
  induction l generalizing c st with
  | nil => simp [grouperLoop, hp]
  | cons v rest ih =>
    by_cases hkey : eq (keyFunc v) k = true
    · by_cases hy : (yieldInner c v).2
      · simp [grouperLoop, hkey, hy, ih, hp, hk]
      · simp [grouperLoop, hkey, hy, hp, hk]
    · simp [grouperLoop, hkey, hp, hk]

theorem _grouper_filter (p : Event V K → Bool) (hp : ∀ r, p (Event.pull r) = false)
    (hk : ∀ v, p (Event.key v) = false) (eq : K → K → Bool) (keyFunc : V → K) (k : K)
    (yieldInner : C → V → C × Bool) (c : C) (st : State V K) :
    (_grouper eq keyFunc k yieldInner c st).2.trace.filter p = st.trace.filter p := by
  by_cases hy : (yieldInner c st.currValue).2
  · simp [_grouper, hy, grouperLoop_filter p hp hk]
  · simp [_grouper, hy]

theorem outerBody_filter (p : Event V K → Bool) (hp : ∀ r, p (Event.pull r) = false)
    (hk : ∀ v, p (Event.key v) = false) (eq : K → K → Bool) (keyFunc : V → K)
    (cons : Consumer V K C) (c : C) (st : State V K) :
    (outerBody eq keyFunc (cons.yield eq keyFunc) c st).1.2.trace.filter p =
      st.trace.filter p ++ [Event.emit st.currKey].filter p := by
  have hy : (cons.yield eq keyFunc st.currKey c
      { st with trace := st.trace ++ [Event.emit st.currKey] }).1.2.trace.filter p =
      st.trace.filter p ++ [Event.emit st.currKey].filter p := by
    by_cases he : (cons.enter c st.currKey).2
    · simp [Consumer.yield, he, _grouper_filter p hp hk]
    · simp [Consumer.yield, he]
  by_cases hc : (cons.yield eq keyFunc st.currKey c
      { st with trace := st.trace ++ [Event.emit st.currKey] }).2
  · by_cases hd : eq (cons.yield eq keyFunc st.currKey c
        { st with trace := st.trace ++ [Event.emit st.currKey] }).1.2.currKey st.currKey = true
    · simp only [outerBody, hc, drain, hd, Bool.not_true, Bool.false_eq_true, if_false,
        if_true]
      rw [_grouper_filter p hp hk, hy]
    · simp only [outerBody, hc, drain, hd, Bool.not_true, Bool.false_eq_true, if_false]
      exact hy
  · simp only [outerBody, hc, Bool.not_false, if_true]
    exact hy

theorem outerLoop_no_stop (eq : K → K → Bool) (keyFunc : V → K) (cons : Consumer V K C)
    (fuel : Nat) :
    ∀ (c : C) (st : State V K),
      (outerLoop eq keyFunc (cons.yield eq keyFunc) fuel c st).1.2.trace.filter Event.isStop
        = st.trace.filter Event.isStop := by
  induction fuel with
  | zero => intro c st; simp [outerLoop]
  | succ n ih =>
    intro c st
    have hb := outerBody_filter Event.isStop (fun _ => rfl) (fun _ => rfl) eq keyFunc cons c st
    simp only [List.filter, Event.isStop, List.append_nil] at hb
    cases hex : st.exhausted with
    | true => simp [outerLoop, hex]
    | false =>
      cases hc : (outerBody eq keyFunc (cons.yield eq keyFunc) c st).2 with
      | false => simpa [outerLoop, hex, hc] using hb
      | true =>
        simp only [outerLoop, hex, hc, Bool.false_eq_true, if_false, if_true]
        rw [ih, hb]

end Trace

/-! ## Properties of the maximal runs -/

section Runs

theorem runsFrom_flatten (eq : K → K → Bool) (keyFunc : V → K) (t : K) (acc l : List V) :
    ((runsFrom eq keyFunc t acc l).map Prod.snd).flatten = acc ++ l := by
  induction l generalizing t acc with
  | nil => simp [runsFrom]
  | cons v l ih =>
    by_cases h : eq (keyFunc v) t = true
    · simp [runsFrom, h, ih]
    · simp [runsFrom, h, ih]

theorem runs_flatten (eq : K → K → Bool) (keyFunc : V → K) (s : List V) :
    ((runs eq keyFunc s).map Prod.snd).flatten = s := by
  cases s with
  | nil => simp [runs]
  | cons v l => simp [runs, runsFrom_flatten]

theorem runsFrom_mem (eq : K → K → Bool) (keyFunc : V → K) (t : K) (acc l : List V)
    (hacc : acc ≠ [] ∧ ∀ v ∈ acc, eq (keyFunc v) t = true)
    (hl : ∀ v ∈ l, eq (keyFunc v) (keyFunc v) = true) :
    ∀ p ∈ runsFrom eq keyFunc t acc l, p.2 ≠ [] ∧ ∀ v ∈ p.2, eq (keyFunc v) p.1 = true := by
  induction l generalizing t acc with
  | nil =>
    intro p hp
    simp only [runsFrom, List.mem_singleton] at hp
    subst hp
    exact hacc
  | cons w l ih =>
    have hl' : ∀ v ∈ l, eq (keyFunc v) (keyFunc v) = true :=
      fun v hv => hl v (List.mem_cons_of_mem _ hv)
    by_cases h : eq (keyFunc w) t = true
    · simp only [runsFrom, h, if_true]
      apply ih _ _ _ hl'
      refine ⟨by simp, ?_⟩
      intro v hv
      simp only [List.mem_append, List.mem_singleton] at hv
      rcases hv with hv | rfl
      · exact hacc.2 v hv
      · exact h
    · simp only [runsFrom, h, Bool.false_eq_true, if_false]
      intro p hp
      simp only [List.mem_cons] at hp
      rcases hp with rfl | hp
      · exact hacc
      · apply ih _ _ _ hl' p hp
        refine ⟨by simp, ?_⟩
        intro v hv
        simp only [List.mem_singleton] at hv
        subst hv
        exact hl v (by simp)

theorem runs_mem (eq : K → K → Bool) (keyFunc : V → K) (s : List V)
    (hrefl : ∀ v ∈ s, eq (keyFunc v) (keyFunc v) = true) :
    ∀ p ∈ runs eq keyFunc s, p.2 ≠ [] ∧ ∀ v ∈ p.2, eq (keyFunc v) p.1 = true := by
  cases s with
  | nil => simp [runs]
  | cons x xs =>
    simp only [runs]
    apply runsFrom_mem
    · refine ⟨by simp, ?_⟩
      intro v hv
      simp only [List.mem_singleton] at hv
      subst hv
      exact hrefl v (by simp)
    · exact fun v hv => hrefl v (List.mem_cons_of_mem _ hv)

theorem runsFrom_chain (eq : K → K → Bool) (keyFunc : V → K) (t : K) (acc l : List V) :
    (∃ g rest, runsFrom eq keyFunc t acc l = (t, g) :: rest) ∧
      List.Chain' (fun a b : K × List V => eq b.1 a.1 = false)
        (runsFrom eq keyFunc t acc l) := by
  induction l generalizing t acc with
  | nil => simp [runsFrom]
  | cons w l ih =>
    by_cases h : eq (keyFunc w) t = true
    · simp only [runsFrom, h, if_true]
      exact ih _ _
    · simp only [runsFrom, h, Bool.false_eq_true, if_false]
      refine ⟨⟨acc, _, rfl⟩, ?_⟩
      obtain ⟨⟨g, rest, hg⟩, hc⟩ := ih (keyFunc w) [w]
      rw [List.chain'_cons']
      refine ⟨?_, hc⟩
      intro y hy
      rw [hg] at hy
      simp only [List.head?_cons, Option.mem_def, Option.some.injEq] at hy
      subst hy
      simpa using h

theorem runs_chain (eq : K → K → Bool) (keyFunc : V → K) (s : List V) :
    List.Chain' (fun a b : K × List V => eq b.1 a.1 = false) (runs eq keyFunc s) := by
  cases s with
  | nil => simp [runs]
  | cons x xs => exact (runsFrom_chain eq keyFunc _ _ _).2

theorem runsFrom_keys [DecidableEq K] (keyFunc : V → K) (t : K) (acc l : List V) :
    (runsFrom same keyFunc t acc l).map Prod.fst
      = List.destutter' (· ≠ ·) t (l.map keyFunc) := by
  induction l generalizing t acc with
  | nil => simp [runsFrom]
  | cons w l ih =>
    rw [List.map_cons, List.destutter'_cons]
    by_cases h : keyFunc w = t
    · have h' : ¬ t ≠ keyFunc w := fun hn => hn h.symm
      simp only [runsFrom, same, h, decide_True, if_true, ne_eq, not_true_eq_false, if_false]
      have := ih t (acc ++ [w])
      simpa [same, h] using this
    · have h' : t ≠ keyFunc w := fun hn => h hn.symm
      simp only [runsFrom, same, h, decide_False, Bool.false_eq_true, if_false, ne_eq,
        List.map_cons, h', not_false_eq_true, if_true]
      have := ih (keyFunc w) [w]
      simpa [same] using this

theorem runs_keys [DecidableEq K] (keyFunc : V → K) (s : List V) :
    (runs same keyFunc s).map Prod.fst = (s.map keyFunc).destutter (· ≠ ·) := by
  cases s with
  | nil => simp [runs]
  | cons x xs =>
    rw [runs, runsFrom_keys, List.map_cons, List.destutter_cons']

theorem runs_length_cons (eq : K → K → Bool) (keyFunc : V → K) (x : V) (xs : List V) :
    (runs eq keyFunc (x :: xs)).length =
      (runs eq keyFunc (xs.dropWhile (fun v => eq (keyFunc v) (keyFunc x)))).length + 1 := by
  rw [runs_cons]
  simp

end Runs

/-! ## Claims about GroupBy -/

section Claims

theorem collector_allOf_eager : (collector allOf : Consumer V K (List (K × List V))).Eager := by
  intro c k v
  simp [collector, allOf]

/-- What the test consumer collects: the maximal runs in order, each cut down to what the
consumer chose to read from it. -/
theorem GroupBy_collector (eq : K → K → Bool) (s : List V) (keyFunc : V → K)
    (limit : Nat → Option Nat) (fuel : Nat) (hfuel : s.length + 1 < fuel)
    (hok : (collector limit : Consumer V K (List (K × List V))).Eager ∨
      ∀ v ∈ s, eq (keyFunc v) (keyFunc v) = true) :
    (GroupBy eq s keyFunc ((collector limit).yield eq keyFunc) fuel []).returned = true ∧
      (GroupBy eq s keyFunc ((collector limit).yield eq keyFunc) fuel []).cons
        = truncRuns limit 0 (runs eq keyFunc s) := by
  obtain ⟨h1, h2⟩ := GroupBy_fst eq s keyFunc (collector limit) fuel [] hfuel hok
  refine ⟨h1, ?_⟩
  rw [h2, onRuns_collector]
  simp

/-- One pass of the outer loop when the current key differs from itself and the consumer
does not range over the group: the pair is emitted and nothing else changes. -/
theorem outerBody_stuck (eq : K → K → Bool) (keyFunc : V → K) (limit : Nat → Option Nat)
    (c : List (K × List V)) (st : State V K) (hlim : limit c.length = some 0)
    (hnan : eq st.currKey st.currKey = false) :
    outerBody eq keyFunc ((collector limit).yield eq keyFunc) c st =
      ((c ++ [(st.currKey, [])], { st with trace := st.trace ++ [Event.emit st.currKey] }),
        true) := by
  simp [outerBody, Consumer.yield, collector, hlim, drain, hnan]

/-- Once the current key differs from itself and the consumer ranges over no further
group, every pass of the outer loop emits one more pair and the loop is never left. -/
theorem outerLoop_stuck (eq : K → K → Bool) (keyFunc : V → K) (limit : Nat → Option Nat)
    (fuel : Nat) :
    ∀ (c : List (K × List V)) (st : State V K), st.exhausted = false →
      eq st.currKey st.currKey = false → (∀ i, c.length ≤ i → limit i = some 0) →
      (outerLoop eq keyFunc ((collector limit).yield eq keyFunc) fuel c st).2 = false ∧
        ((outerLoop eq keyFunc ((collector limit).yield eq keyFunc) fuel c st).1.2.trace.filter
          Event.isEmit).length = (st.trace.filter Event.isEmit).length + fuel ∧
        (outerLoop eq keyFunc ((collector limit).yield eq keyFunc) fuel c st).1.1.length
          = c.length + fuel ∧
        (outerLoop eq keyFunc ((collector limit).yield eq keyFunc) fuel c st).1.2.exhausted
          = false ∧
        (outerLoop eq keyFunc ((collector limit).yield eq keyFunc) fuel c st).1.2.cursor
          = st.cursor := by
  induction fuel with
  | zero => intro c st hex _ _; simp [outerLoop, hex]
  | succ n ih =>
    intro c st hex hnan hlim
    have hb := outerBody_stuck eq keyFunc limit c st (hlim _ (le_refl _)) hnan
    obtain ⟨h1, h2, h3, h4, h5⟩ := ih (c ++ [(st.currKey, [])])
      { st with trace := st.trace ++ [Event.emit st.currKey] } hex hnan
      (fun i hi => hlim i (by simp at hi; omega))
    have hb2 : (outerBody eq keyFunc ((collector limit).yield eq keyFunc) c st).2 = true := by
      rw [hb]
    have hl : outerLoop eq keyFunc ((collector limit).yield eq keyFunc) (n + 1) c st =
        outerLoop eq keyFunc ((collector limit).yield eq keyFunc) n
          (outerBody eq keyFunc ((collector limit).yield eq keyFunc) c st).1.1
          (outerBody eq keyFunc ((collector limit).yield eq keyFunc) c st).1.2 := by
      simp only [outerLoop, hex, hb2, Bool.false_eq_true, if_false, if_true]
    rw [hl, hb]
    refine ⟨h1, ?_, ?_, h4, h5⟩
    · rw [h2]
      simp [Event.isEmit]
      omega
    · rw [h3]
      simp
      omega

/-- C1: when every group is ranged over to its end as it is handed out, `GroupBy`
returns and the elements of all groups, concatenated in emission order, are exactly the
input sequence, whatever the operator `==` of the key type. -/
theorem GroupBy_concat (eq : K → K → Bool) (s : List V) (keyFunc : V → K) (n : Nat) :
    (GroupBy eq s keyFunc ((collector allOf).yield eq keyFunc) (s.length + 2 + n) []).returned
        = true ∧
      ((GroupBy eq s keyFunc ((collector allOf).yield eq keyFunc) (s.length + 2 + n)
        []).cons.map Prod.snd).flatten = s := by
  obtain ⟨h1, h2⟩ := GroupBy_collector eq s keyFunc allOf (s.length + 2 + n) (by omega)
    (Or.inl collector_allOf_eager)
  refine ⟨h1, ?_⟩
  rw [h2, truncRuns_allOf, runs_flatten]

/-- C2, as stated, fails for a key that differs from itself: with the key function that
maps every element to the floating-point `NaN`, the input `[1,1,2]` is emitted as the
three groups `[1]`, `[1]`, `[2]`, each with the key `NaN`, and no element's key equals
the key emitted with its group. -/
theorem GroupBy_nan_counterexample :
    (GroupBy Flt.eq [1, 1, 2] (fun _ : Nat => Flt.nan)
        ((collector allOf).yield Flt.eq (fun _ : Nat => Flt.nan)) 5 []).returned = true ∧
      (GroupBy Flt.eq [1, 1, 2] (fun _ : Nat => Flt.nan)
        ((collector allOf).yield Flt.eq (fun _ : Nat => Flt.nan)) 5 []).cons
        = [(Flt.nan, [1]), (Flt.nan, [1]), (Flt.nan, [2])] ∧
      (∀ p ∈ (GroupBy Flt.eq [1, 1, 2] (fun _ : Nat => Flt.nan)
          ((collector allOf).yield Flt.eq (fun _ : Nat => Flt.nan)) 5 []).cons,
        ∀ v ∈ p.2, Flt.eq ((fun _ : Nat => Flt.nan) v) p.1 = false) := by
  decide

/-- C2, amended: when every key of the input equals itself under `==` and every group is
ranged over to its end, `GroupBy` returns and the emitted pairs are the maximal runs of
the input: their groups concatenate to the input, each group is non-empty, every element
of a group has a key equal to the key emitted with it, and the key of a group never
equals the key of the group emitted just before it. -/
theorem GroupBy_maximal_runs (eq : K → K → Bool) (s : List V) (keyFunc : V → K) (n : Nat)
    (hrefl : ∀ v ∈ s, eq (keyFunc v) (keyFunc v) = true) :
    (GroupBy eq s keyFunc ((collector allOf).yield eq keyFunc) (s.length + 2 + n) []).returned
        = true ∧
      (GroupBy eq s keyFunc ((collector allOf).yield eq keyFunc) (s.length + 2 + n) []).cons
        = runs eq keyFunc s ∧
      ((GroupBy eq s keyFunc ((collector allOf).yield eq keyFunc) (s.length + 2 + n)
        []).cons.map Prod.snd).flatten = s ∧
      (∀ p ∈ (GroupBy eq s keyFunc ((collector allOf).yield eq keyFunc) (s.length + 2 + n)
          []).cons,
        p.2 ≠ [] ∧ ∀ v ∈ p.2, eq (keyFunc v) p.1 = true) ∧
      List.Chain' (fun a b : K × List V => eq b.1 a.1 = false)
        (GroupBy eq s keyFunc ((collector allOf).yield eq keyFunc) (s.length + 2 + n)
          []).cons := by
  obtain ⟨h1, h2⟩ := GroupBy_collector eq s keyFunc allOf (s.length + 2 + n) (by omega)
    (Or.inr hrefl)
  rw [truncRuns_allOf] at h2
  rw [h2]
  exact ⟨h1, rfl, runs_flatten eq keyFunc s, runs_mem eq keyFunc s hrefl,
    runs_chain eq keyFunc s⟩

/-- C2, amended, on the input of the tests: `[1,1,1,2,2,3]` grouped by identity. -/
theorem GroupBy_maximal_runs_witness :
    (∀ v ∈ [1, 1, 1, 2, 2, 3], same (id v) (id v) = true) ∧
      (GroupBy same [1, 1, 1, 2, 2, 3] id ((collector allOf).yield same id)
        ([1, 1, 1, 2, 2, 3].length + 2 + 0) []).cons
        = [(1, [1, 1, 1]), (2, [2, 2]), (3, [3])] :=
  ⟨by decide,
    (GroupBy_maximal_runs same [1, 1, 1, 2, 2, 3] id 0 (by decide)).2.1.trans (by decide)⟩

/-- C3: with keys compared by structural equality, the keys emitted by the outer
sequence are the keys of the input with consecutive duplicates collapsed, so a key that
recurs after another key starts a new group; on `["a","aa","b","bb","ccc"]` grouped by
length the keys are `1,2,1,2,3` and a map filled by overwriting keeps only the last run
of each key. -/
theorem GroupBy_keys_not_merged :
    (∀ (V K : Type) [DecidableEq K] (s : List V) (keyFunc : V → K) (n : Nat),
      (GroupBy same s keyFunc ((collector allOf).yield same keyFunc) (s.length + 2 + n)
        []).returned = true ∧
      (GroupBy same s keyFunc ((collector allOf).yield same keyFunc) (s.length + 2 + n)
        []).cons.map Prod.fst = (s.map keyFunc).destutter (· ≠ ·)) ∧
    (GroupBy same ["a", "aa", "b", "bb", "ccc"] String.length
        ((collector allOf).yield same String.length) 7 []).cons
      = [(1, ["a"]), (2, ["aa"]), (1, ["b"]), (2, ["bb"]), (3, ["ccc"])] ∧
    ((GroupBy same ["a", "aa", "b", "bb", "ccc"] String.length
        ((collector allOf).yield same String.length) 7 []).cons.reverse.lookup 1
      = some ["b"]) ∧
    ((GroupBy same ["a", "aa", "b", "bb", "ccc"] String.length
        ((collector allOf).yield same String.length) 7 []).cons.reverse.lookup 2
      = some ["bb"]) ∧
    ((GroupBy same ["a", "aa", "b", "bb", "ccc"] String.length
        ((collector allOf).yield same String.length) 7 []).cons.reverse.lookup 3
      = some ["ccc"]) := by
  have h : (GroupBy same ["a", "aa", "b", "bb", "ccc"] String.length
      ((collector allOf).yield same String.length) 7 []).cons
      = [(1, ["a"]), (2, ["aa"]), (1, ["b"]), (2, ["bb"]), (3, ["ccc"])] := by
    rw [(GroupBy_collector same ["a", "aa", "b", "bb", "ccc"] String.length allOf 7
      (by decide) (Or.inl collector_allOf_eager)).2, truncRuns_allOf]
    decide
  refine ⟨?_, h, ?_, ?_, ?_⟩
  · intro V K _ s keyFunc n
    obtain ⟨h1, h2⟩ := GroupBy_collector same s keyFunc allOf (s.length + 2 + n) (by omega)
      (Or.inl collector_allOf_eager)
    refine ⟨h1, ?_⟩
    rw [h2, truncRuns_allOf, runs_keys]
  · rw [h]; rfl
  · rw [h]; rfl
  · rw [h]; rfl

/-- C4: if the consumer breaks out of group number `i` after a proper prefix of `j ≥ 1`
elements of its run and goes on with the outer sequence, `GroupBy` returns, and the pair
number `i+1` carries the key of the next maximal run and, fully consumed, holds exactly
that run.  The keys of the input are taken to equal themselves under `==`. -/
theorem GroupBy_abandoned_group (eq : K → K → Bool) (s : List V) (keyFunc : V → K)
    (limit : Nat → Option Nat) (i j : Nat) (k k' : K) (g g' : List V) (fuel : Nat)
    (hrefl : ∀ v ∈ s, eq (keyFunc v) (keyFunc v) = true) (hfuel : s.length + 1 < fuel)
    (hi : (runs eq keyFunc s)[i]? = some (k, g))
    (hnext : (runs eq keyFunc s)[i + 1]? = some (k', g'))
    (hlim : limit i = some j) (_hpos : 0 < j) (_hlt : j < g.length)
    (hfull : limit (i + 1) = none) :
    (GroupBy eq s keyFunc ((collector limit).yield eq keyFunc) fuel []).returned = true ∧
      (GroupBy eq s keyFunc ((collector limit).yield eq keyFunc) fuel []).cons[i]?
        = some (k, g.take j) ∧
      (GroupBy eq s keyFunc ((collector limit).yield eq keyFunc) fuel []).cons[i + 1]?
        = some (k', g') := by
  obtain ⟨h1, h2⟩ := GroupBy_collector eq s keyFunc limit fuel hfuel (Or.inr hrefl)
  refine ⟨h1, ?_⟩
  rw [h2, truncRuns_getElem?, truncRuns_getElem?, hi, hnext]
  simp [truncated, hlim, hfull]

/-- C4, on the input of the spec: `[1,1,1,2,2,3]` grouped by identity, breaking after
one element of the first group, next yields key `2` with group `[2,2]`. -/
theorem GroupBy_abandoned_group_witness :
    (GroupBy same [1, 1, 1, 2, 2, 3] id
        ((collector (fun i => if i = 0 then some 1 else none)).yield same id) 8
        []).returned = true ∧
      (GroupBy same [1, 1, 1, 2, 2, 3] id
        ((collector (fun i => if i = 0 then some 1 else none)).yield same id) 8
        []).cons[0]? = some (1, [1]) ∧
      (GroupBy same [1, 1, 1, 2, 2, 3] id
        ((collector (fun i => if i = 0 then some 1 else none)).yield same id) 8
        []).cons[1]? = some (2, [2, 2]) :=
  GroupBy_abandoned_group same [1, 1, 1, 2, 2, 3] id (fun i => if i = 0 then some 1 else none)
    0 1 1 2 [1, 1, 1] [2, 2] 8 (by decide) (by decide) (by decide) (by decide) (by decide)
    (by decide) (by decide) (by decide)

/-- C5: on the empty input `GroupBy` returns at once, whatever the outer loop body: no
pair is emitted, the key function is never invoked and the consumer's state is
untouched. -/
theorem GroupBy_empty (eq : K → K → Bool) (keyFunc : V → K)
    (yield : K → C → State V K → (C × State V K) × Bool) (fuel : Nat) (c : C) :
    (GroupBy eq ([] : List V) keyFunc yield fuel c).returned = true ∧
      (GroupBy eq ([] : List V) keyFunc yield fuel c).cons = c ∧
      (∀ k, Event.emit k ∉ (GroupBy eq ([] : List V) keyFunc yield fuel c).trace) ∧
      (∀ v, Event.key v ∉ (GroupBy eq ([] : List V) keyFunc yield fuel c).trace) ∧
      (GroupBy eq ([] : List V) keyFunc ((collector allOf).yield eq keyFunc) fuel []).cons
        = [] := by
  simp [GroupBy]

/-- C6, on the failing input: `GroupBy` over the floating-point input `[1, NaN]` keyed by
identity, with a consumer that ranges over the first group only.  The input has two
maximal runs, but the group of key `NaN` is emitted again on every further pass of the
outer loop: after any number `fuel` of passes `GroupBy` has not returned and `fuel`
pairs have been emitted. -/
theorem GroupBy_first_only_diverges (fuel : Nat) :
    (runs Flt.eq id [Flt.num 1, Flt.nan]).length = 2 ∧
      (GroupBy Flt.eq [Flt.num 1, Flt.nan] id ((collector firstOnly).yield Flt.eq id) fuel
        []).returned = false ∧
      ((GroupBy Flt.eq [Flt.num 1, Flt.nan] id ((collector firstOnly).yield Flt.eq id) fuel
        []).trace.filter Event.isEmit).length = fuel ∧
      (GroupBy Flt.eq [Flt.num 1, Flt.nan] id ((collector firstOnly).yield Flt.eq id) fuel
        []).cons.length = fuel := by
  refine ⟨by decide, ?_⟩
  cases fuel with
  | zero => decide
  | succ n =>
    have hstep : outerLoop Flt.eq id ((collector firstOnly).yield Flt.eq id) (n + 1) []
        (seed id (Flt.num 1) [Flt.nan]) =
        outerLoop Flt.eq id ((collector firstOnly).yield Flt.eq id) n
          [(Flt.num 1, [Flt.num 1])]
          { currValue := Flt.nan, currKey := Flt.nan, exhausted := false, cursor := [],
            trace := [Event.pull (some (Flt.num 1)), Event.key (Flt.num 1),
              Event.emit (Flt.num 1), Event.pull (some Flt.nan), Event.key Flt.nan] } := rfl
    obtain ⟨h1, h2, h3, _, _⟩ := outerLoop_stuck Flt.eq id firstOnly n
      [(Flt.num 1, [Flt.num 1])]
      { currValue := Flt.nan, currKey := Flt.nan, exhausted := false, cursor := [],
        trace := [Event.pull (some (Flt.num 1)), Event.key (Flt.num 1),
          Event.emit (Flt.num 1), Event.pull (some Flt.nan), Event.key Flt.nan] }
      rfl rfl (fun i hi => by
        have : i ≠ 0 := by simp at hi; omega
        simp [firstOnly, this])
    simp only [GroupBy, hstep, h1, Bool.false_eq_true, if_false]
    refine ⟨trivial, ?_, ?_⟩
    · rw [h2]
      simp [Event.isEmit]
      omega
    · rw [h3]
      simp
      omega

/-- C7, on the failing input: `GroupBy` over `[1,2,2]` grouped by identity, with a loop
body that keeps the handle of the first group and ranges over it again in the body of
the second pair, before ranging over the second group.  The stale handle yields the
element `2` and advances the shared cursor, so that the live group of key `2` then
yields `[2]` although its run is `[2,2]`.  Ranged over once `GroupBy` has returned, the
same handle yields the last current value. -/
theorem stale_group_yields :
    runs same id [1, 2, 2] = [(1, [1]), (2, [2, 2])] ∧
      (GroupBy same [1, 2, 2] id (revisitFirst same id) 5 ([], [])).returned = true ∧
      (GroupBy same [1, 2, 2] id (revisitFirst same id) 5 ([], [])).cons.2 = [2] ∧
      (GroupBy same [1, 2, 2] id (revisitFirst same id) 5 ([], [])).cons.1
        = [(1, [1]), (2, [2])] ∧
      (GroupBy same [1, 2, 2] id ((collector allOf).yield same id) 5 []).cons
        = [(1, [1]), (2, [2, 2])] ∧
      (GroupBy same [1, 2, 2] id ((collector allOf).yield same id) 5 []).shared.map
        (fun st => (_grouper same id 1 collectAll [] st).1) = some [2] := by
  decide

/-- C8: when the outer sequence is consumed to its end, whatever the consumer does with
each group, the key function is invoked once per input element, in input order, each time
directly after the element was pulled from the input and at no other moment; and the
outer sequence does come to its end when every key of the input equals itself under
`==` or the consumer starts on every group. -/
theorem GroupBy_key_calls (eq : K → K → Bool) (s : List V) (keyFunc : V → K)
    (cons : Consumer V K C) (c : C) (fuel : Nat) (hcont : ∀ c, (cons.leave c).2 = true) :
    ((GroupBy eq s keyFunc (cons.yield eq keyFunc) fuel c).returned = true →
      (GroupBy eq s keyFunc (cons.yield eq keyFunc) fuel c).trace.filterMap Event.keyArg = s ∧
      ((GroupBy eq s keyFunc (cons.yield eq keyFunc) fuel c).trace.filterMap
        Event.keyArg).length = s.length ∧
      (GroupBy eq s keyFunc (cons.yield eq keyFunc) fuel c).trace.filterMap Event.pulled = s ∧
      WellPaired (GroupBy eq s keyFunc (cons.yield eq keyFunc) fuel c).trace) ∧
    ((cons.Eager ∨ ∀ v ∈ s, eq (keyFunc v) (keyFunc v) = true) → s.length + 1 < fuel →
      (GroupBy eq s keyFunc (cons.yield eq keyFunc) fuel c).returned = true) := by
  refine ⟨?_, fun hok hfuel => (GroupBy_fst eq s keyFunc cons fuel c hfuel hok).1⟩
  intro hret
  obtain ⟨hw, hf⟩ := GroupBy_log eq s keyFunc cons fuel c hcont hret
  have hk : (GroupBy eq s keyFunc (cons.yield eq keyFunc) fuel c).trace.filterMap
      Event.keyArg = s := by
    rw [← filterMap_keyArg_filter, hf, pullKeyLog_keyArg]
  refine ⟨hk, by rw [hk], ?_, hw⟩
  rw [← filterMap_pulled_filter, hf, pullKeyLog_pulled]

/-- C8 on `[1,1,1,2,2,3]` with a consumer that reads one element of the first group, none
of the second and all of the third. -/
theorem GroupBy_key_calls_witness :
    (GroupBy same [1, 1, 1, 2, 2, 3] id
        ((collector (fun i => if i = 0 then some 1 else if i = 1 then some 0 else none)).yield
          same id) 8 []).returned = true ∧
      (GroupBy same [1, 1, 1, 2, 2, 3] id
        ((collector (fun i => if i = 0 then some 1 else if i = 1 then some 0 else none)).yield
          same id) 8 []).trace.filterMap Event.keyArg = [1, 1, 1, 2, 2, 3] ∧
      (GroupBy same [1, 1, 1, 2, 2, 3] id
        ((collector (fun i => if i = 0 then some 1 else if i = 1 then some 0 else none)).yield
          same id) 8 []).trace.filterMap Event.pulled = [1, 1, 1, 2, 2, 3] ∧
      WellPaired (GroupBy same [1, 1, 1, 2, 2, 3] id
        ((collector (fun i => if i = 0 then some 1 else if i = 1 then some 0 else none)).yield
          same id) 8 []).trace :=
  have h := GroupBy_key_calls same [1, 1, 1, 2, 2, 3] id
    (collector (fun i => if i = 0 then some 1 else if i = 1 then some 0 else none)) [] 8
    (fun _ => rfl)
  have hret := h.2 (Or.inr (by decide)) (by decide)
  ⟨hret, (h.1 hret).1, (h.1 hret).2.2.1, (h.1 hret).2.2.2⟩

/-- C14: whatever the consumer does (the input may be empty, the outer loop may run to
the end of the input or be left after any pair), the log of a `GroupBy` iteration that
has returned holds `stop` exactly once, as its last entry, and the log of an iteration
that has not returned holds no `stop`; the iteration does return when every key of the
input equals itself under `==` or the consumer starts on every group. -/
theorem GroupBy_stop_once (eq : K → K → Bool) (s : List V) (keyFunc : V → K)
    (cons : Consumer V K C) (c : C) (fuel : Nat) :
    ((GroupBy eq s keyFunc (cons.yield eq keyFunc) fuel c).returned = true →
      ((GroupBy eq s keyFunc (cons.yield eq keyFunc) fuel c).trace.filter Event.isStop).length
        = 1 ∧
      (GroupBy eq s keyFunc (cons.yield eq keyFunc) fuel c).trace.getLast? = some Event.stop ∧
      (GroupBy eq s keyFunc (cons.yield eq keyFunc) fuel c).trace =
        (GroupBy eq s keyFunc (cons.yield eq keyFunc) fuel c).trace.dropLast ++ [Event.stop] ∧
      (GroupBy eq s keyFunc (cons.yield eq keyFunc) fuel c).trace.dropLast.filter Event.isStop
        = []) ∧
    ((GroupBy eq s keyFunc (cons.yield eq keyFunc) fuel c).returned = false →
      (GroupBy eq s keyFunc (cons.yield eq keyFunc) fuel c).trace.filter Event.isStop = []) ∧
    ((cons.Eager ∨ ∀ v ∈ s, eq (keyFunc v) (keyFunc v) = true) → s.length + 1 < fuel →
      (GroupBy eq s keyFunc (cons.yield eq keyFunc) fuel c).returned = true) := by
  refine ⟨?_, ?_, fun hok hfuel => (GroupBy_fst eq s keyFunc cons fuel c hfuel hok).1⟩
  · intro _
    cases s with
    | nil => simp [GroupBy, Event.isStop]
    | cons v rest =>
      have h := outerLoop_no_stop eq keyFunc cons fuel c (seed keyFunc v rest)
      have h0 : (seed keyFunc v rest).trace.filter Event.isStop = [] := by
        simp [seed, Event.isStop]
      rw [h0] at h
      by_cases hf : (outerLoop eq keyFunc (cons.yield eq keyFunc) fuel c
          (seed keyFunc v rest)).2 = true
      · simp only [GroupBy, hf, if_true, release, List.filter_append, h,
          List.dropLast_concat, List.getLast?_append, List.getLast?_singleton]
        simp [Event.isStop]
      · rename_i hret
        simp [GroupBy, hf] at hret
  · intro hret
    cases s with
    | nil => simp [GroupBy] at hret
    | cons v rest =>
      have h := outerLoop_no_stop eq keyFunc cons fuel c (seed keyFunc v rest)
      have h0 : (seed keyFunc v rest).trace.filter Event.isStop = [] := by
        simp [seed, Event.isStop]
      rw [h0] at h
      by_cases hf : (outerLoop eq keyFunc (cons.yield eq keyFunc) fuel c
          (seed keyFunc v rest)).2 = true
      · simp [GroupBy, hf] at hret
      · simp only [GroupBy, hf, Bool.false_eq_true, if_false]
        exact h

/-- C17, on the failing input: `GroupBy` over the one-element floating-point input
`[NaN]` keyed by identity, with a consumer that goes on with the outer sequence and
never ranges over a group.  No pass of the outer loop pulls from the cursor: after any
number `fuel` of passes `GroupBy` has not returned, `fuel` pairs have been emitted and
the only pull is that of the first element. -/
theorem GroupBy_nan_never_returns (fuel : Nat) :
    (GroupBy Flt.eq [Flt.nan] id ((collector noneOf).yield Flt.eq id) fuel []).returned
        = false ∧
      ((GroupBy Flt.eq [Flt.nan] id ((collector noneOf).yield Flt.eq id) fuel []).trace.filter
        Event.isEmit).length = fuel ∧
      (GroupBy Flt.eq [Flt.nan] id ((collector noneOf).yield Flt.eq id) fuel []).shared.map
        (fun st => (st.exhausted, st.cursor)) = some (false, []) := by
  obtain ⟨h1, h2, _, h4, h5⟩ := outerLoop_stuck Flt.eq id noneOf fuel []
    (seed id Flt.nan []) rfl rfl (fun _ _ => rfl)
  simp only [GroupBy, h1, Bool.false_eq_true, if_false]
  refine ⟨trivial, ?_, ?_⟩
  · rw [h2]
    simp [seed, Event.isEmit]
  · rw [Option.map_some', h4, h5]
    rfl

end Claims

/-! ## Count and Cycle: lemmas -/

section Generators

theorem replay_append (yield : C → V → C × Bool) (a b : List V) (c : C) :
    Cycle.replay yield (a ++ b) c =
      if (Cycle.replay yield a c).2 then Cycle.replay yield a c
      else Cycle.replay yield b (Cycle.replay yield a c).1 := by
  induction a generalizing c with
  | nil => simp [Cycle.replay]
  | cons v a ih =>
    by_cases hy : (yield c v).2
    · simp [Cycle.replay, hy, ih]
    · simp [Cycle.replay, hy]

theorem replay_of_continue (yield : C → V → C × Bool) (hy : ∀ c v, (yield c v).2 = true)
    (l : List V) (c : C) : (Cycle.replay yield l c).2 = false := by
  induction l generalizing c with
  | nil => rfl
  | cons v l ih => simp [Cycle.replay, hy, ih]

theorem replay_firstK {N : Type} (k : Nat) (l : List N) (acc : List N) (i : Nat)
    (hi : i ≤ k) (hl : k - i < l.length) :
    Cycle.replay (firstK k) l (acc, i) = ((acc ++ l.take (k - i), k), true) := by
  induction l generalizing acc i with
  | nil => simp at hl
  | cons v l ih =>
    by_cases hk : k ≤ i
    · have hik : i = k := by omega
      subst hik
      simp [Cycle.replay, firstK]
    · obtain ⟨m, hm⟩ : ∃ m, k - i = m + 1 := ⟨k - i - 1, by omega⟩
      have hm' : k - (i + 1) = m := by omega
      have := ih (acc ++ [v]) (i + 1) (by omega) (by simp at hl; omega)
      simp [Cycle.replay, firstK, hk, hm, hm'] at this ⊢
      exact this

theorem Count.loop_eq_replay {N : Type} (add : N → N → N) (step : N)
    (yield : C → N → C × Bool) (fuel : Nat) (n : N) (c : C) :
    Count.loop add step yield fuel n c =
      Cycle.replay yield ((List.range fuel).map (fun i => (fun m => add m step)^[i] n)) c := by
  induction fuel generalizing n c with
  | zero => simp [Count.loop, Cycle.replay]
  | succ fuel ih =>
    rw [List.range_succ_eq_map]
    simp only [List.map_cons, List.map_map, Function.iterate_zero, id_eq, Count.loop,
      Cycle.replay]
    rw [ih]
    rfl

theorem IntType.wrap_add_left (T : IntType) (a b : Int) :
    T.wrap (T.wrap a + b) = T.wrap (a + b) := by
  unfold IntType.wrap
  split
  · have h : (a + 2 ^ (T.bits - 1)) % 2 ^ T.bits - 2 ^ (T.bits - 1) + b + 2 ^ (T.bits - 1)
        = (a + 2 ^ (T.bits - 1)) % 2 ^ T.bits + b := by ring
    rw [h, Int.emod_add_emod]
    congr 2
    ring
  · rw [Int.emod_add_emod]

theorem IntType.iterate_add (T : IntType) (start step : Int) (hstart : T.wrap start = start)
    (i : Nat) : (fun m => T.add m step)^[i] start = T.wrap (start + i * step) := by
  induction i with
  | zero => simpa using hstart.symm
  | succ i ih =>
    rw [Function.iterate_succ_apply', ih]
    simp only [IntType.add]
    rw [IntType.wrap_add_left]
    congr 1
    push_cast
    ring

theorem firstPass_eq_replay (yield : C → V → C × Bool) (l saved : List V) (read : Nat)
    (c : C) :
    (Cycle.firstPass yield l saved read c).cons = (Cycle.replay yield l c).1 ∧
      (Cycle.firstPass yield l saved read c).returned = (Cycle.replay yield l c).2 ∧
      ((Cycle.replay yield l c).2 = false →
        (Cycle.firstPass yield l saved read c).saved = saved ++ l ∧
        (Cycle.firstPass yield l saved read c).read = read + l.length) := by
  induction l generalizing saved read c with
  | nil => simp [Cycle.firstPass, Cycle.replay]
  | cons v l ih =>
    by_cases hy : (yield c v).2
    · have := ih (saved ++ [v]) (read + 1) (yield c v).1
      simp only [Cycle.firstPass, Cycle.replay, hy, Bool.not_true, Bool.false_eq_true,
        if_false, List.length_cons]
      refine ⟨this.1, this.2.1, fun h => ?_⟩
      have h2 := this.2.2 h
      refine ⟨by simpa using h2.1, by omega⟩
    · simp [Cycle.firstPass, Cycle.replay, hy]

theorem forever_eq_replay (yield : C → V → C × Bool) (saved : List V) (fuel : Nat) (c : C) :
    Cycle.forever yield saved fuel c =
      Cycle.replay yield (List.replicate fuel saved).flatten c := by
  induction fuel generalizing c with
  | zero => simp [Cycle.forever, Cycle.replay]
  | succ fuel ih =>
    rw [List.replicate_succ, List.flatten_cons, replay_append, Cycle.forever, ih]

/-- On a non-empty input `Cycle` hands its callback the input over and over. -/
theorem Cycle_eq_replay (s : List V) (hs : s ≠ []) (yield : C → V → C × Bool) (fuel : Nat)
    (c : C) :
    Cycle s yield fuel c = Cycle.replay yield (List.replicate (fuel + 1) s).flatten c := by
  obtain ⟨h1, h2, h3⟩ := firstPass_eq_replay yield s [] 0 c
  rw [List.replicate_succ, List.flatten_cons, replay_append, Cycle, h1, h2]
  cases hr : (Cycle.replay yield s c).2 with
  | true =>
    simp only [if_true]
    exact Prod.ext rfl hr.symm
  | false =>
    have hsaved := (h3 hr).1
    simp only [List.nil_append] at hsaved
    have hlen : s.length ≠ 0 := by
      intro h
      exact hs (List.length_eq_zero.mp h)
    simp [hsaved, hlen, forever_eq_replay]

theorem flatten_replicate_getElem? (s : List V) (m i : Nat) (hi : i < m * s.length) :
    (List.replicate m s).flatten[i]? = s[i % s.length]? := by
  induction m generalizing i with
  | zero => simp at hi
  | succ m ih =>
    rw [List.replicate_succ, List.flatten_cons]
    by_cases h : i < s.length
    · rw [List.getElem?_append_left h, Nat.mod_eq_of_lt h]
    · have hge : s.length ≤ i := by omega
      rw [List.getElem?_append_right hge, ih (i - s.length)]
      · rw [Nat.mod_eq_sub_mod hge]
      · have : (m + 1) * s.length = m * s.length + s.length := by ring
        omega

end Generators

/-! ## Claims about Count and Cycle -/

section GeneratorClaims

/-- C9: for every integer type, `Count(start, step)` returns only when its callback
returns `false`, and the consumer of the tests that stops at its call number `k+1` has
received `start, start+step, .., start+(k-1)*step`, each value obtained from the one
before by the native, wrapping addition of `step`; `Count(10,1)` cut to 5 is
`[10,11,12,13,14]` and `Count(10,-2)` cut to 5 is `[10,8,6,4,2]`. -/
theorem Count_elements (T : IntType) (start step : Int) (hstart : T.wrap start = start)
    (k : Nat) :
    (∀ (C : Type) (yield : C → Int → C × Bool), (∀ c v, (yield c v).2 = true) →
        ∀ fuel c, (Count T.add start step yield fuel c).2 = false) ∧
      (∀ fuel, k < fuel →
        Count T.add start step (firstK k) fuel ([], 0) =
          (((List.range k).map (fun i : Nat => T.wrap (start + i * step)), k), true)) ∧
      (∀ i : Nat, T.wrap (start + (i + 1 : Nat) * step)
        = T.add (T.wrap (start + i * step)) step) ∧
      Count int64.add 10 1 (firstK 5) 6 ([], 0) = (([10, 11, 12, 13, 14], 5), true) ∧
      Count int64.add 10 (-2) (firstK 5) 6 ([], 0) = (([10, 8, 6, 4, 2], 5), true) := by
  refine ⟨?_, ?_, ?_, by decide, by decide⟩
  · intro C yield hy fuel c
    rw [Count, Count.loop_eq_replay]
    exact replay_of_continue yield hy _ c
  · intro fuel hk
    rw [Count, Count.loop_eq_replay, replay_firstK k _ [] 0 (Nat.zero_le _) (by simpa using hk)]
    simp only [List.nil_append, Nat.sub_zero, ← List.map_take, List.take_range,
      Nat.min_eq_left (Nat.le_of_lt hk)]
    congr 2
    apply List.map_congr_left
    intro i _
    exact T.iterate_add start step hstart i
  · intro i
    rw [← T.iterate_add start step hstart (i + 1), ← T.iterate_add start step hstart i,
      Function.iterate_succ_apply']

/-- C9 on `uint8`, where the addition wraps: `Count(250, 3)` cut to 4 is
`[250, 253, 0, 3]`. -/
theorem Count_elements_witness :
    uint8.wrap 250 = 250 ∧
      Count uint8.add 250 3 (firstK 4) 5 ([], 0) = (([250, 253, 0, 3], 4), true) :=
  ⟨by decide, ((Count_elements uint8 250 3 (by decide) 4).2.1 5 (by decide)).trans
    (by decide)⟩

/-- C10: on a non-empty input of length `n`, `Cycle` returns only when its callback
returns `false`, and the consumer of the tests that stops at its call number `k+1` has
received `k` elements, the one at position `i` being `s[i mod n]`; `Cycle([A,B,C])` cut to
8 is `[A,B,C,A,B,C,A,B]`. -/
theorem Cycle_elements (s : List V) (hs : s ≠ []) (k : Nat) :
    (∀ (C : Type) (yield : C → V → C × Bool), (∀ c v, (yield c v).2 = true) →
        ∀ fuel c, (Cycle s yield fuel c).2 = false) ∧
      (∀ fuel, k < (fuel + 1) * s.length →
        (Cycle s (firstK k) fuel ([], 0)).2 = true ∧
        (Cycle s (firstK k) fuel ([], 0)).1.2 = k ∧
        (Cycle s (firstK k) fuel ([], 0)).1.1.length = k ∧
        ∀ i, i < k → (Cycle s (firstK k) fuel ([], 0)).1.1[i]? = s[i % s.length]?) ∧
      Cycle ["A", "B", "C"] (firstK 8) 2 ([], 0)
        = ((["A", "B", "C", "A", "B", "C", "A", "B"], 8), true) := by
  refine ⟨?_, ?_, by decide⟩
  · intro C yield hy fuel c
    rw [Cycle_eq_replay s hs]
    exact replay_of_continue yield hy _ c
  · intro fuel hk
    have hlen : ((List.replicate (fuel + 1) s).flatten).length = (fuel + 1) * s.length := by
      simp
    rw [Cycle_eq_replay s hs, replay_firstK k _ [] 0 (Nat.zero_le _) (by omega)]
    refine ⟨rfl, rfl, ?_, ?_⟩
    · simp only [List.nil_append, Nat.sub_zero, List.length_take]
      omega
    · intro i hi
      simp only [List.nil_append, Nat.sub_zero]
      rw [List.getElem?_take_of_lt hi]
      exact flatten_replicate_getElem? s (fuel + 1) i (by omega)

/-- C10 on the single-element input of the tests: `Cycle([42])` cut to 5 is five times
`42`. -/
theorem Cycle_elements_witness :
    [42] ≠ [] ∧
      ((Cycle [42] (firstK 5) 5 ([], 0)).2 = true ∧
        (Cycle [42] (firstK 5) 5 ([], 0)).1.2 = 5 ∧
        (Cycle [42] (firstK 5) 5 ([], 0)).1.1.length = 5 ∧
        ∀ i, i < 5 → (Cycle [42] (firstK 5) 5 ([], 0)).1.1[i]? = [42][i % [42].length]?) :=
  ⟨by decide, (Cycle_elements [42] (by decide) 5).2.1 5 (by decide)⟩

end GeneratorClaims

/-! ## Repeat: lemmas -/

section RepeatLemmas

theorem Repeat.unbounded_eq_replay (yield : C → V → C × Bool) (object : V) (fuel : Nat)
    (c : C) :
    Repeat.forever yield object fuel c =
      Cycle.replay yield (List.replicate fuel object) c := by
  induction fuel generalizing c with
  | zero => simp [Repeat.forever, Cycle.replay]
  | succ fuel ih =>
    by_cases hy : (yield c object).2
    · simp [Repeat.forever, List.replicate_succ, Cycle.replay, hy, ih]
    · simp [Repeat.forever, List.replicate_succ, Cycle.replay, hy]

theorem Repeat.counted_eq_replay (yield : C → V → C × Bool) (object : V) (count : Int)
    (n : Nat) : ∀ (i : Int) (c : C), (count - i).toNat = n →
      Repeat.counted yield object count i c =
        (Cycle.replay yield (List.replicate n object) c).1 := by
  induction n with
  | zero =>
    intro i c h
    have hi : ¬ i < count := by omega
    rw [Repeat.counted]
    simp [hi, Cycle.replay]
  | succ n ih =>
    intro i c h
    have hi : i < count := by omega
    rw [Repeat.counted]
    by_cases hy : (yield c object).2
    · simp [hi, hy, List.replicate_succ, Cycle.replay, ih (i + 1) _ (by omega)]
    · simp [hi, hy, List.replicate_succ, Cycle.replay]

theorem replay_collectAll (l acc : List V) :
    Cycle.replay collectAll l acc = (acc ++ l, false) := by
  induction l generalizing acc with
  | nil => simp [Cycle.replay]
  | cons v l ih => simp [Cycle.replay, collectAll, ih]

theorem replay_checked (yield : C → V → C × Bool) (l : List V) (g : Checked C)
    (hd : g.done = false) (hp : g.panicked = false) :
    (Cycle.replay (checked yield) l g).1.user = (Cycle.replay yield l g.user).1 ∧
      (Cycle.replay (checked yield) l g).2 = (Cycle.replay yield l g.user).2 ∧
      (Cycle.replay (checked yield) l g).1.panicked = false ∧
      (Cycle.replay (checked yield) l g).1.done = (Cycle.replay yield l g.user).2 := by
  induction l generalizing g with
  | nil => simp [Cycle.replay, hd, hp]
  | cons v l ih =>
    by_cases hy : (yield g.user v).2
    · have := ih { g with user := (yield g.user v).1, done := !(yield g.user v).2 }
        (by simp [hy]) hp
      simpa [Cycle.replay, checked, hd, hy] using this
    · simp [Cycle.replay, checked, hd, hy, hp]

theorem firstPass_takeK (k : Nat) (l saved : List V) (read : Nat) (acc : List V) (i : Nat)
    (hi : i < k) :
    (Cycle.firstPass (takeK k) l saved read (acc, i)).read = read + min (k - i) l.length ∧
      (Cycle.firstPass (takeK k) l saved read (acc, i)).cons =
        (acc ++ l.take (k - i), i + min (k - i) l.length) ∧
      (Cycle.firstPass (takeK k) l saved read (acc, i)).returned = decide (k - i ≤ l.length) ∧
      (l.length < k - i →
        (Cycle.firstPass (takeK k) l saved read (acc, i)).saved = saved ++ l) := by
  induction l generalizing saved read acc i with
  | nil =>
    have : ¬ k - i ≤ 0 := by omega
    simp [Cycle.firstPass, this]
  | cons v l ih =>
    obtain ⟨m, hm⟩ : ∃ m, k - i = m + 1 := ⟨k - i - 1, by omega⟩
    by_cases hlt : i + 1 < k
    · have hm' : k - (i + 1) = m := by omega
      obtain ⟨h1, h2, h3, h4⟩ := ih (saved ++ [v]) (read + 1) (acc ++ [v]) (i + 1) hlt
      rw [hm'] at h1 h2 h3 h4
      simp only [Cycle.firstPass, takeK, hlt, decide_True, Bool.not_true, Bool.false_eq_true,
        if_false, hm, List.length_cons, List.take_succ_cons]
      refine ⟨?_, ?_, ?_, ?_⟩
      · rw [h1]; omega
      · rw [h2]
        refine Prod.ext (by simp) ?_
        simp only
        omega
      · rw [h3]; simp
      · intro hl
        rw [h4 (by omega)]
        simp
    · have hm' : m = 0 := by omega
      subst hm'
      simp [Cycle.firstPass, takeK, hlt, hm]

theorem replay_takeK {N : Type} (k : Nat) (l : List N) (acc : List N) (i : Nat)
    (hi : i < k) (hl : k - i ≤ l.length) :
    Cycle.replay (takeK k) l (acc, i) = ((acc ++ l.take (k - i), k), true) := by
  induction l generalizing acc i with
  | nil => simp at hl; omega
  | cons v l ih =>
    obtain ⟨m, hm⟩ : ∃ m, k - i = m + 1 := ⟨k - i - 1, by omega⟩
    by_cases hlt : i + 1 < k
    · have hm' : k - (i + 1) = m := by omega
      have := ih (acc ++ [v]) (i + 1) hlt (by simp at hl; omega)
      simp [Cycle.replay, takeK, hlt, hm, hm'] at this ⊢
      exact this
    · have hm' : m = 0 := by omega
      have hik : i + 1 = k := by omega
      subst hm'
      simp [Cycle.replay, takeK, hlt, hm, hik]

end RepeatLemmas

/-! ## Claims about Cycle on the empty input and about Repeat -/

section RepeatClaims

/-- C11: on the empty input `Cycle` returns at once, whatever the callback and even with
no pass of the replay loop allowed; the callback is never called and nothing is read. -/
theorem Cycle_empty (yield : C → V → C × Bool) (fuel : Nat) (c : C) :
    Cycle ([] : List V) yield fuel c = (c, true) ∧
      Cycle ([] : List V) yield 0 c = (c, true) ∧
      Cycle ([] : List V) collectAll fuel [] = ([], true) ∧
      (Cycle.firstPass yield ([] : List V) [] 0 c).read = 0 := by
  simp [Cycle, Cycle.firstPass]

/-- C12: for `times ≥ 0`, `Repeat(v, times)` ranged over by a body that never breaks
hands over exactly `times` elements, all equal to `v`, and returns; `Repeat(v, 0)` hands
over nothing and `Repeat(10, 3)` gives `[10,10,10]`. -/
theorem Repeat_times (v : V) (times : Int) (h : 0 ≤ times) (fuel : Nat) :
    Repeat v [times] collectAll fuel [] = (List.replicate times.toNat v, true) ∧
      (((Repeat v [times] collectAll fuel []).1.length : Int) = times) ∧
      (∀ w ∈ (Repeat v [times] collectAll fuel []).1, w = v) ∧
      Repeat v [0] collectAll fuel [] = ([], true) ∧
      Repeat (10 : Int) [3] collectAll fuel [] = ([10, 10, 10], true) := by
  have key : ∀ (V : Type) (v : V) (t : Int),
      Repeat v [t] collectAll fuel [] = (List.replicate t.toNat v, true) := by
    intro V v t
    simp only [Repeat]
    rw [Repeat.counted_eq_replay collectAll v t t.toNat 0 [] (by simp), replay_collectAll]
    simp
  refine ⟨key V v times, ?_, ?_, ?_, ?_⟩
  · rw [key]
    simp only [List.length_replicate]
    omega
  · rw [key]
    intro w hw
    exact List.eq_of_mem_replicate hw
  · rw [key]; rfl
  · rw [key]; rfl

/-- C12 on the test of the repository: `Repeat("hello", 2)` collected to the end. -/
theorem Repeat_times_witness :
    (0 : Int) ≤ 2 ∧ Repeat "hello" [2] collectAll 0 [] = (["hello", "hello"], true) :=
  ⟨by decide, (Repeat_times "hello" 2 (by decide) 0).1.trans (by decide)⟩

/-- C13: `Repeat(v)` without a count returns only when its callback returns `false`,
and a consumer that stops after `k` elements (the consumer of the tests, which breaks at
its call number `k+1`, or one that breaks right after element number `k ≥ 1`) has
received exactly `k` elements, all equal to `v`; `Repeat("x")` cut to 5 is five times
`"x"`. -/
theorem Repeat_forever (v : V) (k : Nat) :
    (∀ (C : Type) (yield : C → V → C × Bool), (∀ c w, (yield c w).2 = true) →
        ∀ fuel c, (Repeat v [] yield fuel c).2 = false) ∧
      (∀ fuel, k < fuel →
        Repeat v [] (firstK k) fuel ([], 0) = ((List.replicate k v, k), true)) ∧
      (∀ fuel, 1 ≤ k → k ≤ fuel →
        Repeat v [] (takeK k) fuel ([], 0) = ((List.replicate k v, k), true)) ∧
      Repeat "x" [] (firstK 5) 6 ([], 0) = ((["x", "x", "x", "x", "x"], 5), true) := by
  refine ⟨?_, ?_, ?_, by decide⟩
  · intro C yield hy fuel c
    simp only [Repeat]
    rw [Repeat.unbounded_eq_replay]
    exact replay_of_continue yield hy _ c
  · intro fuel hk
    simp only [Repeat]
    rw [Repeat.unbounded_eq_replay, replay_firstK k _ [] 0 (Nat.zero_le _) (by simpa using hk)]
    simp [List.take_replicate, Nat.min_eq_left (Nat.le_of_lt hk)]
  · intro fuel hk hf
    simp only [Repeat]
    rw [Repeat.unbounded_eq_replay, replay_takeK k _ [] 0 (by omega) (by simpa using hf)]
    simp [List.take_replicate, Nat.min_eq_left hf]

/-- C19: with at least one count given, `Repeat(v, t0, t1, ..)` hands a body that never
breaks exactly `max(t0, 0)` copies of `v` and returns: a negative count gives nothing,
and the counts after the first play no part. -/
theorem Repeat_first_count (v : V) (t0 : Int) (rest : List Int) (fuel : Nat) :
    Repeat v (t0 :: rest) collectAll fuel [] = (List.replicate t0.toNat v, true) ∧
      (((Repeat v (t0 :: rest) collectAll fuel []).1.length : Int) = max t0 0) ∧
      (t0 < 0 → Repeat v (t0 :: rest) collectAll fuel [] = ([], true)) ∧
      (∀ (C : Type) (yield : C → V → C × Bool) (c : C),
        Repeat v (t0 :: rest) yield fuel c = Repeat v [t0] yield fuel c) := by
  have key : Repeat v (t0 :: rest) collectAll fuel [] = (List.replicate t0.toNat v, true) := by
    simp only [Repeat]
    rw [Repeat.counted_eq_replay collectAll v t0 t0.toNat 0 [] (by simp), replay_collectAll]
    simp
  refine ⟨key, ?_, ?_, ?_⟩
  · rw [key]
    simp only [List.length_replicate]
    omega
  · intro hneg
    rw [key]
    have : t0.toNat = 0 := by omega
    simp [this]
  · intro C yield c
    rfl

/-- C19 on a negative first count followed by a second count. -/
theorem Repeat_first_count_witness :
    (-2 : Int) < 0 ∧ Repeat "x" [-2, 5] collectAll 0 [] = ([], true) :=
  ⟨by decide, (Repeat_first_count "x" (-2) [5] 0).2.2.1 (by decide)⟩

end RepeatClaims

/-! ## Cycle: lemmas on the log of reads -/

section CycleReads

theorem calls_le (yield : C → V → C × Bool) (l : List V) (c : C) :
    Cycle.calls yield l c ≤ l.length := by
  induction l generalizing c with
  | nil => simp [Cycle.calls]
  | cons v l ih =>
    by_cases hy : (yield c v).2
    · have := ih (yield c v).1
      simp [Cycle.calls, hy]
      omega
    · simp [Cycle.calls, hy]

theorem calls_of_running (yield : C → V → C × Bool) (l : List V) (c : C)
    (h : (Cycle.replay yield l c).2 = false) : Cycle.calls yield l c = l.length := by
  induction l generalizing c with
  | nil => simp [Cycle.calls]
  | cons v l ih =>
    by_cases hy : (yield c v).2
    · simp only [Cycle.replay, hy, Bool.not_true, Bool.false_eq_true, if_false] at h
      simp [Cycle.calls, hy, ih _ h]
    · simp [Cycle.replay, hy] at h

theorem replayLog_eq (yield : C → V → C × Bool) (l : List V) (log : List (Access V)) (c : C) :
    Cycle.replayLog yield l log c =
      (((Cycle.replay yield l c).1,
        log ++ (l.take (Cycle.calls yield l c)).flatMap
          (fun v => [Access.load v, Access.give v])),
        (Cycle.replay yield l c).2) := by
  induction l generalizing log c with
  | nil => simp [Cycle.replayLog, Cycle.replay, Cycle.calls]
  | cons v l ih =>
    by_cases hy : (yield c v).2
    · simp [Cycle.replayLog, Cycle.replay, Cycle.calls, hy, ih]
    · simp [Cycle.replayLog, Cycle.replay, Cycle.calls, hy]

theorem firstPassLog_eq (yield : C → V → C × Bool) (l saved : List V)
    (log : List (Access V)) (c : C) :
    (Cycle.firstPassLog yield l saved log c).cons = (Cycle.replay yield l c).1 ∧
      (Cycle.firstPassLog yield l saved log c).returned = (Cycle.replay yield l c).2 ∧
      (Cycle.firstPassLog yield l saved log c).log =
        log ++ (l.take (Cycle.calls yield l c)).flatMap
          (fun v => [Access.read v, Access.give v]) ∧
      ((Cycle.replay yield l c).2 = false →
        (Cycle.firstPassLog yield l saved log c).saved = saved ++ l) := by
  induction l generalizing saved log c with
  | nil => simp [Cycle.firstPassLog, Cycle.replay, Cycle.calls]
  | cons v l ih =>
    by_cases hy : (yield c v).2
    · obtain ⟨h1, h2, h3, h4⟩ := ih (saved ++ [v])
        (log ++ [Access.read v, Access.give v]) (yield c v).1
      simp only [Cycle.firstPassLog, Cycle.replay, Cycle.calls, hy, Bool.not_true,
        Bool.false_eq_true, if_false]
      refine ⟨h1, h2, ?_, ?_⟩
      · rw [h3]
        simp
      · intro h
        rw [h4 h]
        simp
    · simp [Cycle.firstPassLog, Cycle.replay, Cycle.calls, hy]

theorem replayLog_append (yield : C → V → C × Bool) (a b : List V) (log : List (Access V))
    (c : C) :
    Cycle.replayLog yield (a ++ b) log c =
      if (Cycle.replayLog yield a log c).2 then Cycle.replayLog yield a log c
      else Cycle.replayLog yield b (Cycle.replayLog yield a log c).1.2
        (Cycle.replayLog yield a log c).1.1 := by
  induction a generalizing log c with
  | nil => simp [Cycle.replayLog]
  | cons v a ih =>
    by_cases hy : (yield c v).2
    · simp [Cycle.replayLog, hy, ih]
    · simp [Cycle.replayLog, hy]

theorem foreverLog_eq (yield : C → V → C × Bool) (saved : List V) (fuel : Nat) :
    ∀ (log : List (Access V)) (c : C),
      Cycle.foreverLog yield saved fuel log c =
        Cycle.replayLog yield (List.replicate fuel saved).flatten log c := by
  induction fuel with
  | zero => intro log c; simp [Cycle.foreverLog, Cycle.replayLog]
  | succ n ih =>
    intro log c
    rw [List.replicate_succ, List.flatten_cons, replayLog_append, Cycle.foreverLog, ih]

theorem filter_isGive_reads (l : List V) :
    ((l.flatMap (fun v => [Access.read v, Access.give v])).filter Access.isGive).length
      = l.length := by
  induction l with
  | nil => rfl
  | cons v l ih => simp [List.flatMap_cons, Access.isGive, List.filter_cons, ih]

theorem filter_isGive_loads (l : List V) :
    ((l.flatMap (fun v => [Access.load v, Access.give v])).filter Access.isGive).length
      = l.length := by
  induction l with
  | nil => rfl
  | cons v l ih => simp [List.flatMap_cons, Access.isGive, List.filter_cons, ih]

theorem readArg_reads (l : List V) :
    (l.flatMap (fun v => [Access.read v, Access.give v])).filterMap Access.readArg = l := by
  induction l with
  | nil => rfl
  | cons v l ih => simp [List.flatMap_cons, Access.readArg, List.filterMap_cons, ih]

theorem readArg_loads (l : List V) :
    (l.flatMap (fun v => [Access.load v, Access.give v])).filterMap Access.readArg = [] := by
  induction l with
  | nil => rfl
  | cons v l ih => simp [List.flatMap_cons, Access.readArg, List.filterMap_cons, ih]

/-- The run of `Cycle` with its log, on a non-empty input, in terms of plain loops over
the input and over the repeated input. -/
theorem CycleLog_eq (s : List V) (hs : s ≠ []) (yield : C → V → C × Bool) (fuel : Nat)
    (c : C) :
    CycleLog s yield fuel c =
      if (Cycle.replay yield s c).2 then
        (((Cycle.replay yield s c).1,
          (s.take (Cycle.calls yield s c)).flatMap (fun v => [Access.read v, Access.give v])),
          true)
      else
        (((Cycle.replay yield (List.replicate fuel s).flatten (Cycle.replay yield s c).1).1,
          s.flatMap (fun v => [Access.read v, Access.give v]) ++
            ((List.replicate fuel s).flatten.take
              (Cycle.calls yield (List.replicate fuel s).flatten
                (Cycle.replay yield s c).1)).flatMap
              (fun v => [Access.load v, Access.give v])),
          (Cycle.replay yield (List.replicate fuel s).flatten (Cycle.replay yield s c).1).2) := by
  obtain ⟨h1, h2, h3, h4⟩ := firstPassLog_eq yield s [] [] c
  cases hr : (Cycle.replay yield s c).2 with
  | true =>
    rw [hr] at h2
    simp only [CycleLog, h2, if_true, h1, h3, List.nil_append]
  | false =>
    rw [hr] at h2
    have hsaved := h4 hr
    simp only [List.nil_append] at hsaved h3
    have hlen : s.length ≠ 0 := fun h => hs (List.length_eq_zero.mp h)
    have hcalls := calls_of_running yield s c hr
    simp only [CycleLog, h2, hsaved, hlen, Bool.false_eq_true, if_false, h1, h3,
      foreverLog_eq, replayLog_eq, hcalls, List.take_length]

/-- Erasing the log from the logged run of `Cycle` gives the run of `Cycle`. -/
theorem CycleLog_erase (s : List V) (yield : C → V → C × Bool) (fuel : Nat) (c : C) :
    ((CycleLog s yield fuel c).1.1, (CycleLog s yield fuel c).2) = Cycle s yield fuel c := by
  by_cases hs : s = []
  · subst hs
    simp [CycleLog, Cycle, Cycle.firstPassLog, Cycle.firstPass]
  · rw [CycleLog_eq s hs, Cycle_eq_replay s hs, List.replicate_succ, List.flatten_cons,
      replay_append]
    cases hr : (Cycle.replay yield s c).2 with
    | true => simp [Prod.ext_iff, hr]
    | false => simp

/-- The shape of the log of `Cycle`, for any callback: with `g` calls of the callback,
the first `min g n` elements of the input are read, each handed to the callback as it is
read, and every later call is served from `saved`. -/
theorem CycleLog_shape (s : List V) (yield : C → V → C × Bool) (fuel : Nat) (c : C) :
    (CycleLog s yield fuel c).1.2 =
      (s.take ((CycleLog s yield fuel c).1.2.filter Access.isGive).length).flatMap
          (fun v => [Access.read v, Access.give v]) ++
        ((List.replicate fuel s).flatten.take
          (((CycleLog s yield fuel c).1.2.filter Access.isGive).length - s.length)).flatMap
          (fun v => [Access.load v, Access.give v]) := by
  by_cases hs : s = []
  · subst hs
    simp [CycleLog, Cycle.firstPassLog]
  · rw [CycleLog_eq s hs]
    have hc1 := calls_le yield s c
    cases hr : (Cycle.replay yield s c).2 with
    | true =>
      simp only [if_true, filter_isGive_reads, List.length_take, Nat.min_eq_left hc1]
      have : Cycle.calls yield s c - s.length = 0 := by omega
      simp [this]
    | false =>
      have hc2 := calls_le yield (List.replicate fuel s).flatten (Cycle.replay yield s c).1
      simp only [Bool.false_eq_true, if_false, List.filter_append, List.length_append,
        filter_isGive_reads, filter_isGive_loads, List.length_take, Nat.min_eq_left hc2]
      rw [List.take_of_length_le (Nat.le_add_right s.length _), Nat.add_sub_cancel_left]

theorem replay_stopsAt (k : Nat) (user : C → V → C) (l : List V) :
    ∀ (c : C × Nat), c.2 < k →
      (Cycle.replay (stopsAt k user) l c).2 = decide (k ≤ c.2 + l.length) ∧
        (Cycle.replay (stopsAt k user) l c).1.2 = min k (c.2 + l.length) ∧
        Cycle.calls (stopsAt k user) l c = min (k - c.2) l.length := by
  induction l with
  | nil =>
    intro c hc
    simp [Cycle.replay, Cycle.calls]
    omega
  | cons v l ih =>
    intro c hc
    by_cases hlt : c.2 + 1 < k
    · obtain ⟨h1, h2, h3⟩ := ih (user c.1 v, c.2 + 1) hlt
      simp only [Cycle.replay, Cycle.calls, stopsAt, hlt, decide_True, Bool.not_true,
        Bool.false_eq_true, if_false, List.length_cons]
      simp only [stopsAt] at h1 h2 h3
      rw [h1, h2, h3]
      refine ⟨?_, ?_, ?_⟩
      · congr 1
        apply propext
        constructor <;> intro h <;> omega
      · omega
      · omega
    · simp only [Cycle.replay, Cycle.calls, stopsAt, hlt, decide_False, Bool.not_false,
        if_true, List.length_cons]
      refine ⟨?_, ?_, ?_⟩
      · symm
        simp
        omega
      · omega
      · omega

/-- The log of `Cycle` run with a callback that returns `false` on its call number
`k ≥ 1`: the number of calls made within `fuel` passes of the replay loop, and whether
`Cycle` returned. -/
theorem CycleLog_stopsAt (s : List V) (k : Nat) (hk : 1 ≤ k) (user : C → V → C)
    (fuel : Nat) (c : C) :
    ((CycleLog s (stopsAt k user) fuel (c, 0)).1.2.filter Access.isGive).length
        = min k ((fuel + 1) * s.length) ∧
      ((CycleLog s (stopsAt k user) fuel (c, 0)).2 = true ↔
        s = [] ∨ k ≤ (fuel + 1) * s.length) := by
  by_cases hs : s = []
  · subst hs
    simp [CycleLog, Cycle.firstPassLog]
  · have hpos : 0 < s.length := List.length_pos.mpr hs
    have hR : ((List.replicate fuel s).flatten).length = fuel * s.length := by simp
    have hmul : (fuel + 1) * s.length = fuel * s.length + s.length := Nat.succ_mul _ _
    obtain ⟨h1, h2, h3⟩ := replay_stopsAt k user s (c, 0) (by simpa using hk)
    simp only [Nat.zero_add, Nat.sub_zero] at h1 h2 h3
    rw [CycleLog_eq s hs]
    by_cases hkn : k ≤ s.length
    · have hflag : (Cycle.replay (stopsAt k user) s (c, 0)).2 = true := by
        rw [h1]; simpa using hkn
      simp only [hflag, if_true, filter_isGive_reads, List.length_take, h3, hs, false_or,
        true_iff]
      rw [hmul]
      exact ⟨by omega, by omega⟩
    · have hflag : (Cycle.replay (stopsAt k user) s (c, 0)).2 = false := by
        rw [h1]; simpa using hkn
      have hcnt : (Cycle.replay (stopsAt k user) s (c, 0)).1.2 = s.length := by
        rw [h2]; omega
      obtain ⟨h4, _, h6⟩ := replay_stopsAt k user (List.replicate fuel s).flatten
        (Cycle.replay (stopsAt k user) s (c, 0)).1 (by rw [hcnt]; omega)
      rw [hcnt, hR] at h4 h6
      simp only [hflag, Bool.false_eq_true, if_false, List.filter_append, List.length_append,
        filter_isGive_reads, filter_isGive_loads, List.length_take, h6, hR, h4, hs, false_or]
      rw [hmul]
      refine ⟨by omega, ?_⟩
      simp only [decide_eq_true_eq]
      constructor <;> intro h <;> omega

end CycleReads

/-! ## Claims about reads and early stops of the generators -/

section GeneratorSafety

/-- C16: the whole run of `Cycle` on an input `s` of length `n`, logged.  For any
callback, the reads of the input are the first `min g n` elements of `s` in order, `g`
being the number of calls of the callback; each is handed to the callback as it is read,
and every call after the `n`-th is served from `saved`.  For every callback that returns
`false` on its call number `k ≥ 1`, exactly `min k n` elements are read, and `Cycle`
returns with `k` calls made once the replay loop is given enough passes. -/
theorem Cycle_reads_once (s : List V) (k : Nat) (hk : 1 ≤ k) :
    (∀ (C : Type) (yield : C → V → C × Bool) (fuel : Nat) (c : C),
      ((CycleLog s yield fuel c).1.1, (CycleLog s yield fuel c).2) = Cycle s yield fuel c ∧
      (CycleLog s yield fuel c).1.2 =
        (s.take ((CycleLog s yield fuel c).1.2.filter Access.isGive).length).flatMap
            (fun v => [Access.read v, Access.give v]) ++
          ((List.replicate fuel s).flatten.take
            (((CycleLog s yield fuel c).1.2.filter Access.isGive).length - s.length)).flatMap
            (fun v => [Access.load v, Access.give v]) ∧
      (CycleLog s yield fuel c).1.2.filterMap Access.readArg =
        s.take ((CycleLog s yield fuel c).1.2.filter Access.isGive).length ∧
      ((CycleLog s yield fuel c).1.2.filterMap Access.readArg).length =
        min ((CycleLog s yield fuel c).1.2.filter Access.isGive).length s.length) ∧
    (∀ (C : Type) (user : C → V → C) (fuel : Nat) (c : C),
      (CycleLog s (stopsAt k user) fuel (c, 0)).1.2.filterMap Access.readArg = s.take k ∧
      ((CycleLog s (stopsAt k user) fuel (c, 0)).1.2.filterMap Access.readArg).length
        = min k s.length ∧
      ((CycleLog s (stopsAt k user) fuel (c, 0)).1.2.filter Access.isGive).length
        = min k ((fuel + 1) * s.length) ∧
      (k ≤ (fuel + 1) * s.length →
        (CycleLog s (stopsAt k user) fuel (c, 0)).2 = true ∧
        ((CycleLog s (stopsAt k user) fuel (c, 0)).1.2.filter Access.isGive).length = k)) := by
  have hreads : ∀ (C : Type) (yield : C → V → C × Bool) (fuel : Nat) (c : C),
      (CycleLog s yield fuel c).1.2.filterMap Access.readArg =
        s.take ((CycleLog s yield fuel c).1.2.filter Access.isGive).length := by
    intro C yield fuel c
    have h := congrArg (List.filterMap Access.readArg) (CycleLog_shape s yield fuel c)
    rw [List.filterMap_append, readArg_reads, readArg_loads, List.append_nil] at h
    exact h
  refine ⟨?_, ?_⟩
  · intro C yield fuel c
    refine ⟨CycleLog_erase s yield fuel c, CycleLog_shape s yield fuel c,
      hreads C yield fuel c, ?_⟩
    rw [hreads, List.length_take]
  · intro C user fuel c
    obtain ⟨hg, hret⟩ := CycleLog_stopsAt s k hk user fuel c
    have hle : s.length ≤ (fuel + 1) * s.length := Nat.le_mul_of_pos_left _ (Nat.succ_pos _)
    have htake : s.take (min k ((fuel + 1) * s.length)) = s.take k := by
      by_cases hkf : k ≤ (fuel + 1) * s.length
      · rw [Nat.min_eq_left hkf]
      · rw [Nat.min_eq_right (by omega), List.take_of_length_le hle,
          List.take_of_length_le (by omega)]
    refine ⟨?_, ?_, hg, ?_⟩
    · rw [hreads, hg, htake]
    · rw [hreads, hg, htake, List.length_take]
    · intro hkf
      exact ⟨hret.mpr (Or.inr hkf), by rw [hg]; omega⟩

/-- C16 on `[A,B,C]` with a callback that returns `false` on its call number 8: three
elements are read, `A`, `B`, `C`, and `Cycle` returns after 8 calls. -/
theorem Cycle_reads_once_witness :
    1 ≤ 8 ∧
      (CycleLog ["A", "B", "C"] (stopsAt 8 (fun (acc : List String) v => acc ++ [v])) 2
        ([], 0)).1.2.filterMap Access.readArg = ["A", "B", "C"] ∧
      (CycleLog ["A", "B", "C"] (stopsAt 8 (fun (acc : List String) v => acc ++ [v])) 2
        ([], 0)).1.1 = (["A", "B", "C", "A", "B", "C", "A", "B"], 8) :=
  ⟨by decide,
    ((Cycle_reads_once ["A", "B", "C"] 8 (by decide)).2 (List String)
      (fun acc v => acc ++ [v]) 2 []).1.trans (by decide),
    by decide⟩

/-- C18: `Count`, `Cycle` and `Repeat`, run with any loop body under the run-time check
of its `yield` function, never call it after it returned `false` (the check does not
fire), have returned whenever the body has returned `false`, and compute what they
compute without the check. -/
theorem early_stop_safety :
    (∀ (N C : Type) (add : N → N → N) (start step : N) (yield : C → N → C × Bool)
        (fuel : Nat) (c : C),
      (Count add start step (checked yield) fuel (Checked.init c)).1.panicked = false ∧
      ((Count add start step (checked yield) fuel (Checked.init c)).1.done = false ∨
        (Count add start step (checked yield) fuel (Checked.init c)).2 = true) ∧
      (Count add start step (checked yield) fuel (Checked.init c)).1.user
        = (Count add start step yield fuel c).1) ∧
    (∀ (V C : Type) (s : List V) (yield : C → V → C × Bool) (fuel : Nat) (c : C),
      (Cycle s (checked yield) fuel (Checked.init c)).1.panicked = false ∧
      ((Cycle s (checked yield) fuel (Checked.init c)).1.done = false ∨
        (Cycle s (checked yield) fuel (Checked.init c)).2 = true) ∧
      (Cycle s (checked yield) fuel (Checked.init c)).1.user = (Cycle s yield fuel c).1) ∧
    (∀ (V C : Type) (v : V) (times : List Int) (yield : C → V → C × Bool) (fuel : Nat)
        (c : C),
      (Repeat v times (checked yield) fuel (Checked.init c)).1.panicked = false ∧
      ((Repeat v times (checked yield) fuel (Checked.init c)).1.done = false ∨
        (Repeat v times (checked yield) fuel (Checked.init c)).2 = true) ∧
      (Repeat v times (checked yield) fuel (Checked.init c)).1.user
        = (Repeat v times yield fuel c).1) := by
  have key : ∀ (V C : Type) (yield : C → V → C × Bool) (l : List V) (c : C),
      (Cycle.replay (checked yield) l (Checked.init c)).1.panicked = false ∧
      ((Cycle.replay (checked yield) l (Checked.init c)).1.done = false ∨
        (Cycle.replay (checked yield) l (Checked.init c)).2 = true) ∧
      (Cycle.replay (checked yield) l (Checked.init c)).1.user
        = (Cycle.replay yield l c).1 := by
    intro V C yield l c
    obtain ⟨h1, h2, h3, h4⟩ := replay_checked yield l (Checked.init c) rfl rfl
    refine ⟨h3, ?_, h1⟩
    rw [h4, h2]
    cases (Cycle.replay yield l (Checked.init c).user).2 <;> simp
  refine ⟨?_, ?_, ?_⟩
  · intro N C add start step yield fuel c
    simp only [Count, Count.loop_eq_replay]
    exact key N C yield _ c
  · intro V C s yield fuel c
    by_cases hs : s = []
    · subst hs
      simp [Cycle, Cycle.firstPass, Checked.init]
    · rw [Cycle_eq_replay s hs, Cycle_eq_replay s hs]
      exact key V C yield _ c
  · intro V C v times yield fuel c
    cases times with
    | nil =>
      simp only [Repeat, Repeat.unbounded_eq_replay]
      exact key V C yield _ c
    | cons t rest =>
      simp only [Repeat]
      rw [Repeat.counted_eq_replay (checked yield) v t t.toNat 0 _ (by simp),
        Repeat.counted_eq_replay yield v t t.toNat 0 _ (by simp)]
      have := key V C yield (List.replicate t.toNat v) c
      exact ⟨this.1, Or.inr trivial, this.2.2⟩

end GeneratorSafety

/-! ## The list cursor and the general cursor run alike -/

section Simulation

variable {σ : Type}

theorem grouperLoop_sim (next : σ → Option (V × σ)) (exact : Bool) (eq : K → K → Bool)
    (keyFunc : V → K) (k : K) (yieldInner : C → V → C × Bool) (l : List V) :
    ∀ (fuel : Nat) (c : C) (st : State V K) (stL : LazyState σ V K),
      Sim next exact stL st → st.cursor = l → l.length < fuel →
      (exact = true ∨ (grouperLoop eq keyFunc k yieldInner l c st).2.exhausted = false) →
      ∃ rL, grouperLoopL next eq keyFunc k yieldInner fuel c stL =
          some ((grouperLoop eq keyFunc k yieldInner l c st).1, rL) ∧
        Sim next exact rL (grouperLoop eq keyFunc k yieldInner l c st).2 := by
  induction l with
  | nil =>
    intro fuel c st stL hs hl hf hx
    obtain ⟨n, rfl⟩ : ∃ n, fuel = n + 1 := ⟨fuel - 1, by simp at hf; omega⟩
    obtain ⟨h1, h2, h3, h4, h5⟩ := hs
    have hex : exact = true := by
      rcases hx with hx | hx
      · exact hx
      · simp [grouperLoop] at hx
    rw [hl] at h5
    have hn : next stL.cursor = none := h5 hex
    refine ⟨_, by simp only [grouperLoopL, hn]; rfl, ?_⟩
    refine ⟨h1, h2, rfl, by simp [grouperLoop, h4], ?_⟩
    simp only [grouperLoop]
    intro _
    exact hn
  | cons v rest ih =>
    intro fuel c st stL hs hl hf hx
    obtain ⟨n, rfl⟩ : ∃ n, fuel = n + 1 := ⟨fuel - 1, by simp at hf; omega⟩
    obtain ⟨h1, h2, h3, h4, h5⟩ := hs
    rw [hl] at h5
    obtain ⟨cur', hn, hfol⟩ := h5
    have hs1 : Sim next exact
        ({ stL with currValue := v, currKey := keyFunc v, cursor := cur',
                    trace := stL.trace ++ [Event.pull (some v), Event.key v] } :
          LazyState σ V K)
        { st with currValue := v, currKey := keyFunc v, cursor := rest,
                  trace := st.trace ++ [Event.pull (some v), Event.key v] } :=
      ⟨rfl, rfl, h3, by simp [h4], hfol⟩
    have eL : grouperLoopL next eq keyFunc k yieldInner (n + 1) c stL =
        if (!(eq (keyFunc v) k)) = true then
          some (c, { stL with currValue := v, currKey := keyFunc v, cursor := cur',
                              trace := stL.trace ++ [Event.pull (some v), Event.key v] })
        else if (!(yieldInner c v).2) = true then
          some ((yieldInner c v).1,
            { stL with currValue := v, currKey := keyFunc v, cursor := cur',
                       trace := stL.trace ++ [Event.pull (some v), Event.key v] })
        else
          grouperLoopL next eq keyFunc k yieldInner n (yieldInner c v).1
            { stL with currValue := v, currKey := keyFunc v, cursor := cur',
                       trace := stL.trace ++ [Event.pull (some v), Event.key v] } := by
      simp only [grouperLoopL, hn]
    have e : grouperLoop eq keyFunc k yieldInner (v :: rest) c st =
        if (!(eq (keyFunc v) k)) = true then
          (c, { st with currValue := v, currKey := keyFunc v, cursor := rest,
                        trace := st.trace ++ [Event.pull (some v), Event.key v] })
        else if (!(yieldInner c v).2) = true then
          ((yieldInner c v).1,
            { st with currValue := v, currKey := keyFunc v, cursor := rest,
                      trace := st.trace ++ [Event.pull (some v), Event.key v] })
        else
          grouperLoop eq keyFunc k yieldInner rest (yieldInner c v).1
            { st with currValue := v, currKey := keyFunc v, cursor := rest,
                      trace := st.trace ++ [Event.pull (some v), Event.key v] } := rfl
    rw [e] at hx ⊢
    rw [eL]
    by_cases hk : (!(eq (keyFunc v) k)) = true
    · rw [if_pos hk, if_pos hk]
      exact ⟨_, rfl, hs1⟩
    · rw [if_neg hk] at hx ⊢
      rw [if_neg hk]
      by_cases hy : (!(yieldInner c v).2) = true
      · rw [if_pos hy, if_pos hy]
        exact ⟨_, rfl, hs1⟩
      · rw [if_neg hy] at hx ⊢
        rw [if_neg hy]
        exact ih n _ _ _ hs1 rfl (by simp at hf; omega) hx

theorem _grouper_sim (next : σ → Option (V × σ)) (exact : Bool) (eq : K → K → Bool)
    (keyFunc : V → K) (k : K) (yieldInner : C → V → C × Bool) (fuel : Nat) (c : C)
    (st : State V K) (stL : LazyState σ V K) (hs : Sim next exact stL st)
    (hf : st.cursor.length < fuel)
    (hx : exact = true ∨ (_grouper eq keyFunc k yieldInner c st).2.exhausted = false) :
    ∃ rL, _grouperL next eq keyFunc k yieldInner fuel c stL =
        some ((_grouper eq keyFunc k yieldInner c st).1, rL) ∧
      Sim next exact rL (_grouper eq keyFunc k yieldInner c st).2 := by
  have e : _grouper eq keyFunc k yieldInner c st =
      if (!(yieldInner c st.currValue).2) = true then ((yieldInner c st.currValue).1, st)
      else grouperLoop eq keyFunc k yieldInner st.cursor (yieldInner c st.currValue).1 st :=
    rfl
  rw [e] at hx ⊢
  simp only [_grouperL, hs.1]
  by_cases hy : (!(yieldInner c st.currValue).2) = true
  · rw [if_pos hy, if_pos hy]
    exact ⟨_, rfl, hs⟩
  · rw [if_neg hy] at hx ⊢
    rw [if_neg hy]
    exact grouperLoop_sim next exact eq keyFunc k yieldInner st.cursor fuel _ st stL hs rfl
      hf hx

theorem drain_sim (next : σ → Option (V × σ)) (exact : Bool) (eq : K → K → Bool)
    (keyFunc : V → K) (k : K) (fuel : Nat) (st : State V K) (stL : LazyState σ V K)
    (hs : Sim next exact stL st) (hf : st.cursor.length < fuel)
    (hx : exact = true ∨ (drain eq keyFunc k st).exhausted = false) :
    ∃ rL, drainL next eq keyFunc k fuel stL = some rL ∧
      Sim next exact rL (drain eq keyFunc k st) := by
  by_cases hk : eq st.currKey k = true
  · have hkL : eq stL.currKey k = true := by rw [hs.2.1]; exact hk
    simp only [drain, hk, if_true] at hx ⊢
    obtain ⟨rL, h1, h2⟩ := _grouper_sim next exact eq keyFunc k
      (fun (u : Unit) (_ : V) => (u, true)) fuel () st stL hs hf hx
    exact ⟨rL, by simp [drainL, hkL, h1], h2⟩
  · have hkL : ¬ eq stL.currKey k = true := by rw [hs.2.1]; exact hk
    simp only [drain, hk, if_false]
    exact ⟨stL, by simp [drainL, hkL], hs⟩

theorem yield_sim (next : σ → Option (V × σ)) (exact : Bool) (eq : K → K → Bool)
    (keyFunc : V → K) (cons : Consumer V K C) (k : K) (fuel : Nat) (c : C) (st : State V K)
    (stL : LazyState σ V K) (hs : Sim next exact stL st) (hf : st.cursor.length < fuel)
    (hx : exact = true ∨ (cons.yield eq keyFunc k c st).1.2.exhausted = false) :
    ∃ rL, cons.yieldL next eq keyFunc k fuel c stL =
        some (((cons.yield eq keyFunc k c st).1.1, rL), (cons.yield eq keyFunc k c st).2) ∧
      Sim next exact rL (cons.yield eq keyFunc k c st).1.2 := by
  by_cases he : (cons.enter c k).2
  · simp only [Consumer.yield, he, if_true] at hx ⊢
    obtain ⟨rL, h1, h2⟩ := _grouper_sim next exact eq keyFunc k cons.inner fuel
      (cons.enter c k).1 st stL hs hf hx
    exact ⟨rL, by simp [Consumer.yieldL, he, h1], h2⟩
  · simp only [Consumer.yield, he]
    exact ⟨stL, by simp [Consumer.yieldL, he], hs⟩

theorem outerBody_sim (next : σ → Option (V × σ)) (exact : Bool) (eq : K → K → Bool)
    (keyFunc : V → K) (cons : Consumer V K C) (fuel : Nat) (c : C) (st : State V K)
    (stL : LazyState σ V K) (hs : Sim next exact stL st) (hf : st.cursor.length < fuel)
    (hx : exact = true ∨
      (outerBody eq keyFunc (cons.yield eq keyFunc) c st).1.2.exhausted = false) :
    ∃ rL, outerBodyL next eq keyFunc cons fuel c stL =
        some (((outerBody eq keyFunc (cons.yield eq keyFunc) c st).1.1, rL),
          (outerBody eq keyFunc (cons.yield eq keyFunc) c st).2) ∧
      Sim next exact rL (outerBody eq keyFunc (cons.yield eq keyFunc) c st).1.2 := by
  have hs0 : Sim next exact
      ({ stL with trace := stL.trace ++ [Event.emit stL.currKey] } : LazyState σ V K)
      { st with trace := st.trace ++ [Event.emit st.currKey] } :=
    ⟨hs.1, hs.2.1, hs.2.2.1, by simp [hs.2.1, hs.2.2.2.1], hs.2.2.2.2⟩
  have hkL : stL.currKey = st.currKey := hs.2.1
  by_cases hc : (cons.yield eq keyFunc st.currKey c
      { st with trace := st.trace ++ [Event.emit st.currKey] }).2
  · simp only [outerBody, hc, Bool.not_true, Bool.false_eq_true, if_false] at hx ⊢
    have hxy : exact = true ∨ (cons.yield eq keyFunc st.currKey c
        { st with trace := st.trace ++ [Event.emit st.currKey] }).1.2.exhausted = false := by
      rcases hx with hx | hx
      · exact Or.inl hx
      · right
        cases h : (cons.yield eq keyFunc st.currKey c
            { st with trace := st.trace ++ [Event.emit st.currKey] }).1.2.exhausted with
        | false => rfl
        | true =>
          rw [drain_exhausted_mono eq keyFunc st.currKey _ h] at hx
          exact absurd hx (by simp)
    obtain ⟨yL, h1, h2⟩ := yield_sim next exact eq keyFunc cons st.currKey fuel c _ _ hs0 hf
      hxy
    obtain ⟨dL, h3, h4⟩ := drain_sim next exact eq keyFunc st.currKey fuel _ yL h2
      (lt_of_le_of_lt (yield_cursor_le eq keyFunc cons st.currKey c _) hf) hx
    refine ⟨dL, ?_, h4⟩
    simp only [hkL] at h1
    simp only [outerBodyL, hkL, h1, hc, Bool.not_true, Bool.false_eq_true, if_false, h3,
      Option.map_some']
  · simp only [outerBody, hc, Bool.not_false, if_true] at hx ⊢
    obtain ⟨yL, h1, h2⟩ := yield_sim next exact eq keyFunc cons st.currKey fuel c _ _ hs0 hf
      hx
    refine ⟨yL, ?_, h2⟩
    have hc' : (cons.yield eq keyFunc st.currKey c
        { st with trace := st.trace ++ [Event.emit st.currKey] }).2 = false := by
      simpa using hc
    simp only [hkL] at h1
    simp [outerBodyL, hkL, h1, hc']

theorem outerLoop_sim (next : σ → Option (V × σ)) (exact : Bool) (eq : K → K → Bool)
    (keyFunc : V → K) (cons : Consumer V K C) (inner : Nat) (fuel : Nat) :
    ∀ (c : C) (st : State V K) (stL : LazyState σ V K), Sim next exact stL st →
      st.cursor.length < inner →
      (outerLoop eq keyFunc (cons.yield eq keyFunc) fuel c st).2 = true →
      (exact = true ∨
        (outerLoop eq keyFunc (cons.yield eq keyFunc) fuel c st).1.2.exhausted = false) →
      ∃ rL, outerLoopL next eq keyFunc cons inner fuel c stL =
          some ((outerLoop eq keyFunc (cons.yield eq keyFunc) fuel c st).1.1, rL) ∧
        Sim next exact rL (outerLoop eq keyFunc (cons.yield eq keyFunc) fuel c st).1.2 := by
  induction fuel with
  | zero => intro c st stL _ _ h; simp [outerLoop] at h
  | succ n ih =>
    intro c st stL hs hi hflag hx
    cases hex : st.exhausted with
    | true =>
      have hexL : stL.exhausted = true := hs.2.2.1.trans hex
      have e : outerLoop eq keyFunc (cons.yield eq keyFunc) (n + 1) c st = ((c, st), true) := by
        simp [outerLoop, hex]
      rw [e]
      exact ⟨stL, by simp [outerLoopL, hexL], hs⟩
    | false =>
      have hexL : stL.exhausted = false := hs.2.2.1.trans hex
      cases hc : (outerBody eq keyFunc (cons.yield eq keyFunc) c st).2 with
      | false =>
        have e : outerLoop eq keyFunc (cons.yield eq keyFunc) (n + 1) c st =
            ((outerBody eq keyFunc (cons.yield eq keyFunc) c st).1, true) := by
          simp only [outerLoop, hex, hc, Bool.false_eq_true, if_false]
        rw [e] at hx ⊢
        obtain ⟨rL, h1, h2⟩ := outerBody_sim next exact eq keyFunc cons inner c st stL hs hi hx
        exact ⟨rL, by simp [outerLoopL, hexL, h1, hc], h2⟩
      | true =>
        have e : outerLoop eq keyFunc (cons.yield eq keyFunc) (n + 1) c st =
            outerLoop eq keyFunc (cons.yield eq keyFunc) n
              (outerBody eq keyFunc (cons.yield eq keyFunc) c st).1.1
              (outerBody eq keyFunc (cons.yield eq keyFunc) c st).1.2 := by
          simp only [outerLoop, hex, hc, Bool.false_eq_true, if_false, if_true]
        rw [e] at hx hflag ⊢
        have hxb : exact = true ∨
            (outerBody eq keyFunc (cons.yield eq keyFunc) c st).1.2.exhausted = false := by
          rcases hx with hx | hx
          · exact Or.inl hx
          · right
            cases h : (outerBody eq keyFunc (cons.yield eq keyFunc) c st).1.2.exhausted with
            | false => rfl
            | true =>
              cases n with
              | zero => simp [outerLoop] at hflag
              | succ m =>
                simp [outerLoop, h] at hx
        obtain ⟨bL, h1, h2⟩ := outerBody_sim next exact eq keyFunc cons inner c st stL hs hi
          hxb
        obtain ⟨rL, h3, h4⟩ := ih (outerBody eq keyFunc (cons.yield eq keyFunc) c st).1.1
          (outerBody eq keyFunc (cons.yield eq keyFunc) c st).1.2 bL h2
          (lt_of_le_of_lt (outerBody_cursor_le eq keyFunc cons c st) hi) hflag hx
        exact ⟨rL, by simp [outerLoopL, hexL, h1, hc, h3], h4⟩

theorem follows_listNext (exact : Bool) (l : List V) : Follows listNext exact l l := by
  induction l with
  | nil => intro _; rfl
  | cons v rest ih => exact ⟨rest, rfl, ih⟩

/-- On a finite list the general-cursor embedding of `GroupBy`, given enough fuel for
its inner loops, returns what the list embedding returns when that has returned, for
every consumer. -/
theorem GroupByL_listNext (eq : K → K → Bool) (s : List V) (keyFunc : V → K)
    (cons : Consumer V K C) (fuel : Nat) (c : C) (hf : s.length + 1 < fuel)
    (hret : (GroupBy eq s keyFunc (cons.yield eq keyFunc) fuel c).returned = true) :
    GroupByL listNext eq s keyFunc cons fuel c =
      some ((GroupBy eq s keyFunc (cons.yield eq keyFunc) fuel c).cons,
        (GroupBy eq s keyFunc (cons.yield eq keyFunc) fuel c).trace) := by
  cases s with
  | nil => simp [GroupByL, GroupBy, listNext]
  | cons v rest =>
    have hflag : (outerLoop eq keyFunc (cons.yield eq keyFunc) fuel c
        (seed keyFunc v rest)).2 = true := by
      by_contra hn
      simp [GroupBy, hn] at hret
    have hs : Sim listNext true
        ({ currValue := v, currKey := keyFunc v, exhausted := false, cursor := rest,
           trace := [Event.pull (some v), Event.key v] } : LazyState (List V) V K)
        (seed keyFunc v rest) := ⟨rfl, rfl, rfl, rfl, follows_listNext true rest⟩
    obtain ⟨rL, h1, h2⟩ := outerLoop_sim listNext true eq keyFunc cons fuel fuel c
      (seed keyFunc v rest) _ hs (by simp [seed] at hf ⊢; omega) hflag (Or.inl rfl)
    simp only [GroupByL, listNext, h1, Option.map_some', GroupBy, hflag, if_true, release,
      h2.2.2.2.1]

/-- The outer loop run with the consumer `stopAt k`, from the start of a run with `m`
more groups to read to their end: it is left, not exhausted, with the first element of
the run number `m` from here as the current value. -/
theorem outerLoop_stopAt (eq : K → K → Bool) (keyFunc : V → K) (k : Nat) (m : Nat) :
    ∀ (fuel : Nat) (c : List (K × List V)) (st : State V K), st.exhausted = false →
      st.currKey = keyFunc st.currValue → c.length + m + 1 = k →
      m < (runs eq keyFunc (st.currValue :: st.cursor)).length → m < fuel →
      (outerLoop eq keyFunc ((stopAt k).yield eq keyFunc) fuel c st).2 = true ∧
        (outerLoop eq keyFunc ((stopAt k).yield eq keyFunc) fuel c st).1.2.exhausted = false ∧
        (outerLoop eq keyFunc ((stopAt k).yield eq keyFunc) fuel c st).1.1.length = k ∧
        (outerLoop eq keyFunc ((stopAt k).yield eq keyFunc) fuel c st).1.2.currValue ::
            (outerLoop eq keyFunc ((stopAt k).yield eq keyFunc) fuel c st).1.2.cursor =
          (((runs eq keyFunc (st.currValue :: st.cursor)).drop m).map Prod.snd).flatten := by
  induction m with
  | zero =>
    intro fuel c st hex hkey hc _ hfuel
    obtain ⟨n, rfl⟩ : ∃ n, fuel = n + 1 := ⟨fuel - 1, by omega⟩
    have hf := outerBody_fst eq keyFunc (stopAt k) c st
    rw [stopAt, pass_collectorUntil] at hf
    have hlt : ¬ c.length + 1 < k := by omega
    have hflag : (outerBody eq keyFunc ((stopAt k).yield eq keyFunc) c st).2 = false := by
      have := congrArg Prod.snd hf
      simpa [hlt] using this
    have hfst : (outerBody eq keyFunc ((stopAt k).yield eq keyFunc) c st).1.1.length = k := by
      have := congrArg Prod.fst hf
      simp only at this
      rw [stopAt, this]
      simp
      omega
    have e : outerLoop eq keyFunc ((stopAt k).yield eq keyFunc) (n + 1) c st =
        ((outerBody eq keyFunc ((stopAt k).yield eq keyFunc) c st).1, true) := by
      simp only [outerLoop, hex, hflag, Bool.false_eq_true, if_false]
    rw [e]
    have hst : (outerBody eq keyFunc ((stopAt k).yield eq keyFunc) c st).1.2 =
        { st with trace := st.trace ++ [Event.emit st.currKey] } := by
      simp [outerBody, Consumer.yield, stopAt, collectorUntil, collector, hlt]
    rw [hst]
    refine ⟨rfl, hex, hfst, ?_⟩
    simp only [List.drop_zero]
    rw [runs_flatten]
  | succ m ih =>
    intro fuel c st hex hkey hc hm hfuel
    obtain ⟨n, rfl⟩ : ∃ n, fuel = n + 1 := ⟨fuel - 1, by omega⟩
    have hf := outerBody_fst eq keyFunc (stopAt k) c st
    rw [stopAt, pass_collectorUntil] at hf
    have hlt : c.length + 1 < k := by omega
    have hflag : (outerBody eq keyFunc ((stopAt k).yield eq keyFunc) c st).2 = true := by
      have := congrArg Prod.snd hf
      simpa [hlt] using this
    have hfst : (outerBody eq keyFunc ((stopAt k).yield eq keyFunc) c st).1.1.length
        = c.length + 1 := by
      have := congrArg Prod.fst hf
      simp only at this
      rw [stopAt, this]
      simp
    have hsafe : eq st.currKey st.currKey = true ∨
        (((stopAt k : Consumer V K (List (K × List V))).enter c st.currKey).2 = true ∧
          ((stopAt k : Consumer V K (List (K × List V))).inner
            ((stopAt k : Consumer V K (List (K × List V))).enter c st.currKey).1
            st.currValue).2 = true) := by
      right
      simp [stopAt, collectorUntil, collector, hlt]
    have e : outerLoop eq keyFunc ((stopAt k).yield eq keyFunc) (n + 1) c st =
        outerLoop eq keyFunc ((stopAt k).yield eq keyFunc) n
          (outerBody eq keyFunc ((stopAt k).yield eq keyFunc) c st).1.1
          (outerBody eq keyFunc ((stopAt k).yield eq keyFunc) c st).1.2 := by
      simp only [outerLoop, hex, hflag, Bool.false_eq_true, if_false, if_true]
    rw [e]
    rw [runs_length_cons, ← hkey] at hm
    rw [runs_cons, ← hkey]
    rcases outerBody_snd eq keyFunc (stopAt k) c st hsafe hflag with h | h
    · rw [h.1] at hm
      simp [runs] at hm
    · obtain ⟨he, hk', _, hd⟩ := h
      rw [← hd] at hm ⊢
      have := ih n (outerBody eq keyFunc ((stopAt k).yield eq keyFunc) c st).1.1
        (outerBody eq keyFunc ((stopAt k).yield eq keyFunc) c st).1.2
        (by rw [he, hex]) hk' (by omega) (by omega) (by omega)
      simpa using this

/-- What `GroupBy` pulls from a finite input when the consumer reads the first `k-1`
groups to their end and leaves the outer loop at pair number `k`. -/
theorem outerLoop_stopAt_pulled (eq : K → K → Bool) (keyFunc : V → K) (k : Nat) (v : V)
    (rest : List V) (fuel : Nat) (hk : 1 ≤ k)
    (hruns : k ≤ (runs eq keyFunc (v :: rest)).length) (hfuel : k ≤ fuel) :
    (outerLoop eq keyFunc ((stopAt k).yield eq keyFunc) fuel [] (seed keyFunc v rest)).2
        = true ∧
      (outerLoop eq keyFunc ((stopAt k).yield eq keyFunc) fuel []
        (seed keyFunc v rest)).1.2.exhausted = false ∧
      (outerLoop eq keyFunc ((stopAt k).yield eq keyFunc) fuel []
        (seed keyFunc v rest)).1.2.trace.filterMap Event.pulled
        = (v :: rest).take
          (1 + (((runs eq keyFunc (v :: rest)).take (k - 1)).map (fun p => p.2.length)).sum) ∧
      1 + (((runs eq keyFunc (v :: rest)).take (k - 1)).map (fun p => p.2.length)).sum
        ≤ (v :: rest).length := by
  obtain ⟨h0', h1, _, h3⟩ := outerLoop_stopAt eq keyFunc k (k - 1) fuel []
    (seed keyFunc v rest) rfl rfl (by simp; omega) (by simp only [seed]; omega) (by omega)
  simp only [seed] at h3
  have h0 : Sound (v :: rest) (seed keyFunc v rest) := by
    refine ⟨by simp [seed, WellPaired], ?_, by simp [seed]⟩
    simp [seed, pullKeyLog, Event.isPullKey]
  have hs := (outerLoop_sound (v :: rest) eq keyFunc (stopAt k) fuel []
    (seed keyFunc v rest) h0).2.1
  have hp := congrArg (List.filterMap (Event.pulled (K := K))) hs
  rw [List.filterMap_append, filterMap_pulled_filter, pullKeyLog_pulled, pullKeyLog_pulled]
    at hp
  have hsplit : (((runs eq keyFunc (v :: rest)).take (k - 1)).map Prod.snd).flatten ++
      (((runs eq keyFunc (v :: rest)).drop (k - 1)).map Prod.snd).flatten = v :: rest := by
    rw [← List.flatten_append, ← List.map_append, List.take_append_drop, runs_flatten]
  have hlen : ((((runs eq keyFunc (v :: rest)).take (k - 1)).map Prod.snd).flatten).length =
      (((runs eq keyFunc (v :: rest)).take (k - 1)).map (fun p => p.2.length)).sum := by
    rw [List.length_flatten, List.map_map]
    rfl
  rw [← h3] at hsplit
  set st' := (outerLoop eq keyFunc ((stopAt k).yield eq keyFunc) fuel []
    (seed keyFunc v rest)).1.2 with hst'
  set pre := (((runs eq keyFunc (v :: rest)).take (k - 1)).map Prod.snd).flatten with hpre
  have hcat : st'.trace.filterMap Event.pulled ++ st'.cursor =
      (pre ++ [st'.currValue]) ++ st'.cursor := by
    rw [hp, List.append_assoc]
    exact hsplit.symm
  have hpull : st'.trace.filterMap Event.pulled = pre ++ [st'.currValue] :=
    List.append_cancel_right hcat
  have hle : 1 + pre.length ≤ (v :: rest).length := by
    rw [← hsplit]
    simp
    omega
  refine ⟨h0', h1, ?_, by rw [← hlen]; exact hle⟩
  rw [← hlen, hpull]
  have : (v :: rest) = (pre ++ [st'.currValue]) ++ st'.cursor := by
    rw [List.append_assoc]
    exact hsplit.symm
  rw [this, List.take_left']
  simp
  omega

theorem runsFrom_length_le (eq : K → K → Bool) (keyFunc : V → K) (t : K) (acc l : List V) :
    (runsFrom eq keyFunc t acc l).length ≤ l.length + 1 := by
  induction l generalizing t acc with
  | nil => simp [runsFrom]
  | cons v l ih =>
    by_cases h : eq (keyFunc v) t = true
    · have := ih t (acc ++ [v])
      simp only [runsFrom, h, if_true, List.length_cons]
      omega
    · have := ih (keyFunc v) [v]
      simp only [runsFrom, h, Bool.false_eq_true, if_false, List.length_cons]
      omega

theorem runs_length_le (eq : K → K → Bool) (keyFunc : V → K) (s : List V) :
    (runs eq keyFunc s).length ≤ s.length := by
  cases s with
  | nil => simp [runs]
  | cons v l => exact runsFrom_length_le eq keyFunc _ _ _

/-- Over any cursor that delivers the finite prefix `s` first, `GroupBy` run with the
consumer `stopAt k` pulls exactly the first `1 + L` elements, `L` being the total length
of the first `k-1` runs. -/
theorem GroupByL_stopAt (next : σ → Option (V × σ)) (eq : K → K → Bool) (cur : σ)
    (keyFunc : V → K) (s : List V) (k : Nat) (hk : 1 ≤ k)
    (hruns : k ≤ (runs eq keyFunc s).length) (hfeed : Follows next false cur s)
    (fuel : Nat) (hfuel : s.length + 1 < fuel) :
    (GroupByL next eq cur keyFunc (stopAt k) fuel []).map
        (fun r => r.2.filterMap Event.pulled) =
      some (s.take
        (1 + (((runs eq keyFunc s).take (k - 1)).map (fun p => p.2.length)).sum)) ∧
      (s.take
        (1 + (((runs eq keyFunc s).take (k - 1)).map (fun p => p.2.length)).sum)).length
        = 1 + (((runs eq keyFunc s).take (k - 1)).map (fun p => p.2.length)).sum := by
  cases s with
  | nil => simp [runs] at hruns; omega
  | cons v rest =>
    obtain ⟨cur', hn, hfol⟩ := hfeed
    have hkf : k ≤ fuel := by
      have := runs_length_le eq keyFunc (v :: rest)
      omega
    obtain ⟨h0, h1, h2, h3⟩ := outerLoop_stopAt_pulled eq keyFunc k v rest fuel hk hruns hkf
    have hs : Sim next false
        ({ currValue := v, currKey := keyFunc v, exhausted := false, cursor := cur',
           trace := [Event.pull (some v), Event.key v] } : LazyState σ V K)
        (seed keyFunc v rest) := ⟨rfl, rfl, rfl, rfl, hfol⟩
    obtain ⟨rL, h4, h5⟩ := outerLoop_sim next false eq keyFunc (stopAt k) fuel fuel []
      (seed keyFunc v rest) _ hs (by simp [seed] at hfuel ⊢; omega) h0 (Or.inr h1)
    refine ⟨?_, ?_⟩
    · simp only [GroupByL, hn, h4, Option.map_some', h5.2.2.2.1, List.filterMap_append, h2]
      simp [Event.pulled]
    · rw [List.length_take]
      omega

end Simulation

/-! ## Claim about laziness -/

section Laziness

variable {σ : Type}

/-- C15: for an input given by any pull cursor, finite or infinite, whose elements start
with a finite prefix `s` holding at least `k ≥ 1` runs, a consumer that reads the first
`k-1` groups to their end and leaves the outer loop on receiving pair number `k` makes
`GroupBy` pull exactly the first `1 + L` elements of the input, `L` being the total
length of the first `k-1` runs; leaving at the first pair pulls exactly one element.
This holds whatever the operator `==` of the key type. -/
theorem GroupBy_lazy (next : σ → Option (V × σ)) (eq : K → K → Bool) (cur : σ)
    (keyFunc : V → K) (s : List V) (k : Nat) (hk : 1 ≤ k)
    (hruns : k ≤ (runs eq keyFunc s).length)
    (hfeed : Follows next false cur s) (fuel : Nat) (hfuel : s.length + 1 < fuel) :
    (GroupByL next eq cur keyFunc (stopAt k) fuel []).map
        (fun r => r.2.filterMap Event.pulled) =
      some (s.take
        (1 + (((runs eq keyFunc s).take (k - 1)).map (fun p => p.2.length)).sum)) ∧
      (GroupByL next eq cur keyFunc (stopAt k) fuel []).map
        (fun r => (r.2.filterMap Event.pulled).length) =
      some (1 + (((runs eq keyFunc s).take (k - 1)).map (fun p => p.2.length)).sum) ∧
      (GroupByL next eq cur keyFunc (stopAt 1) fuel []).map
        (fun r => (r.2.filterMap Event.pulled).length) = some 1 := by
  obtain ⟨h1, h2⟩ := GroupByL_stopAt next eq cur keyFunc s k hk hruns hfeed fuel hfuel
  obtain ⟨h3, h4⟩ :=
    GroupByL_stopAt next eq cur keyFunc s 1 (le_refl 1) (by omega) hfeed fuel hfuel
  refine ⟨h1, ?_, ?_⟩
  · have := congrArg (Option.map List.length) h1
    rw [Option.map_map, Option.map_some', h2] at this
    exact this
  · have := congrArg (Option.map List.length) h3
    rw [Option.map_map, Option.map_some', h4] at this
    simpa using this

/-- C15 on the infinite input `0, 0, 1, 1, 2, 2, ..` grouped by identity: leaving at the
third pair pulls `1 + (2 + 2) = 5` elements. -/
theorem GroupBy_lazy_witness :
    1 ≤ 3 ∧ 3 ≤ (runs same id [0, 0, 1, 1, 2]).length ∧
      Follows pairsNext false 0 [0, 0, 1, 1, 2] ∧ [0, 0, 1, 1, 2].length + 1 < 7 ∧
      (GroupByL pairsNext same 0 id (stopAt 3) 7 []).map
        (fun r => (r.2.filterMap Event.pulled).length) = some 5 :=
  ⟨by decide, by decide, by simp [Follows, pairsNext], by decide,
    (GroupBy_lazy pairsNext same 0 id [0, 0, 1, 1, 2] 3 (by decide) (by decide)
      (by simp [Follows, pairsNext]) 7 (by decide)).2.1.trans (by decide)⟩

/-- C15 on the finite input `[1,1,1,2,2,3]` grouped by identity: leaving at the second
pair pulls `1 + 3 = 4` elements, and the run over the list cursor is the run of the list
embedding. -/
theorem GroupBy_lazy_finite :
    (GroupByL listNext same [1, 1, 1, 2, 2, 3] id (stopAt 2) 8 []).map
        (fun r => (r.2.filterMap Event.pulled).length) = some 4 ∧
      GroupByL listNext same [1, 1, 1, 2, 2, 3] id (stopAt 2) 8 []
        = some ((GroupBy same [1, 1, 1, 2, 2, 3] id ((stopAt 2).yield same id) 8 []).cons,
          (GroupBy same [1, 1, 1, 2, 2, 3] id ((stopAt 2).yield same id) 8 []).trace) :=
  ⟨by decide, GroupByL_listNext _ _ _ _ _ _ (by decide) (by decide)⟩

end Laziness

end Itertools
